import Mathlib

/-!
Verification of the Merkle set-membership authentication system
(`MerkleTree` in the unnamed browser module, `ZKProofSystem` in
`zk-proof.js`, `CryptoUtils` in `crypto-utils.js`).

The shallow embedding models the SHA-256 primitive as an explicit
deterministic function parameter `H : String → String`
(`CryptoUtils.sha256`); `CryptoUtils.combineHashes l r = H (l ++ r)`.
JavaScript `Map` objects keyed by hash strings are modelled as
association lists with JavaScript insertion-order/overwrite semantics
(`jsMapSet`).  Node object identity (`===`) is modelled by structural
equality on `MNode`; this is faithful because every leaf carries its
distinct insertion index, which makes all node objects created by one
build structurally distinct exactly when they are distinct objects.

Two behaviours of the source are captured exactly:
* `_buildTreeRecursive` receives `this.leaves` itself on the first
  level, so the odd-level padding `nodes.push(...)` appends the
  duplicated last leaf to the stored leaf array (`MerkleTree.buildTree`
  below stores `padEven` of the leaf list whenever there is more than
  one leaf);
* `generateMembershipProof` walks upward using the hash-keyed node map
  (`findParent`), so hash collisions between created nodes can evict a
  parent and truncate the walk.
-/

namespace Pony

/-- The hash primitive supplied by `CryptoUtils.sha256`: a fixed
deterministic function from strings to strings. -/
abbrev HashFun := String → String

/-- CryptoUtils.combineHashes: hash of the two hashes concatenated
left-then-right. -/
def combineHashes (H : HashFun) (l r : String) : String := H (l ++ r)

/-- CryptoUtils.generateUserId: hash of the public key. -/
def generateUserId (H : HashFun) (publicKey : String) : String := H publicKey

/-- CryptoUtils.truncateHash. -/
def truncateHash (hash : String) (length : Nat) : String :=
  hash.take length ++ "..."

/-- MerkleTreeNode. A leaf stores its `data = {publicKey, index}`
payload; an internal node stores its two (always non-null) children.
Structural equality models JavaScript object identity (see module
header). -/
inductive MNode where
  | leaf (hash : String) (publicKey : String) (index : Nat)
  | inner (hash : String) (left : MNode) (right : MNode)
deriving DecidableEq, Repr, Inhabited

/-- The `hash` field of a node. -/
def MNode.hash : MNode → String
  | .leaf h _ _ => h
  | .inner h _ _ => h

/-- The `isLeaf` field of a node. -/
def MNode.isLeaf : MNode → Bool
  | .leaf .. => true
  | .inner .. => false

/-- The `left` field (null on leaves). -/
def MNode.leftChild : MNode → Option MNode
  | .leaf .. => none
  | .inner _ l _ => some l

/-- The `right` field (null on leaves). -/
def MNode.rightChild : MNode → Option MNode
  | .leaf .. => none
  | .inner _ _ r => some r

/-- The `data.index` payload of a leaf (only ever read on leaves). -/
def MNode.index : MNode → Nat
  | .leaf _ _ i => i
  | .inner .. => 0

/-- The content-addressed node index `this.nodes : Map<hash, node>`,
as an insertion-ordered association list. -/
abbrev NodeMap := List (String × MNode)

/-- JavaScript `Map.prototype.set`: overwrite in place if the key is
present, append otherwise. -/
def jsMapSet (m : NodeMap) (k : String) (v : MNode) : NodeMap :=
  if m.any (fun p => p.1 == k) then
    m.map (fun p => if p.1 == k then (k, v) else p)
  else m ++ [(k, v)]

/-- `this.nodes.set(n.hash, n)` for each node of `ns`, in order. -/
def insertAll (m : NodeMap) (ns : List MNode) : NodeMap :=
  ns.foldl (fun acc n => jsMapSet acc n.hash n) m

/-- The association-list entries of a node list, keyed by hash. -/
def nodeEntries (ns : List MNode) : NodeMap := ns.map (fun n => (n.hash, n))

/-- Odd-level padding: `if (nodes.length % 2 === 1) nodes.push(last)`. -/
def padEven (nodes : List MNode) : List MNode :=
  if nodes.length % 2 = 1 then nodes ++ [nodes.getLastD default] else nodes

/-- The parent-creation loop of `_buildTreeRecursive`: combine adjacent
pairs left-to-right into fresh internal nodes. -/
def buildPairs (H : HashFun) : List MNode → List MNode
  | a :: b :: rest =>
      MNode.inner (combineHashes H a.hash b.hash) a b :: buildPairs H rest
  | _ => []

/-- Each pairing pass halves the (padded) node count. -/
theorem buildPairs_length (H : HashFun) :
    ∀ l : List MNode, (buildPairs H l).length = l.length / 2
  | [] => by simp [buildPairs]
  | [_] => by simp [buildPairs]
  | _ :: _ :: rest => by
      simp [buildPairs, buildPairs_length H rest]
      omega

/-- Padding adds one node exactly on odd levels. -/
theorem padEven_length (l : List MNode) :
    (padEven l).length = l.length + l.length % 2 := by
  unfold padEven
  split
  · simp
    omega
  · omega

/-- The recursion of `_buildTreeRecursive`, totalised by a fuel
argument so that it is structurally recursive (and hence evaluates):
reduce the level to a single node, registering each created parent in
the node map.  `none` models the JavaScript behaviours that produce no
root (the function is only ever called on non-empty levels; an empty
level would recurse forever, as would fuel exhaustion, which is proved
unreachable for the fuel `buildRec` supplies). -/
def buildRecF (H : HashFun) : Nat → List MNode → NodeMap →
    Option (MNode × NodeMap)
  | _, [], _ => none
  | _, [n], m => some (n, m)
  | 0, _ :: _ :: _, _ => none
  | fuel + 1, a :: b :: rest, m =>
      let next := buildPairs H (padEven (a :: b :: rest))
      buildRecF H fuel next (insertAll m next)

/-- `_buildTreeRecursive`: the fuel `nodes.length` always suffices
because each pass at least halves a level of two or more nodes. -/
def buildRec (H : HashFun) (nodes : List MNode) (m : NodeMap) :
    Option (MNode × NodeMap) :=
  buildRecF H nodes.length nodes m

/-- A pairing pass strictly shrinks a level of two or more nodes. -/
theorem nextLevel_length (H : HashFun) (l : List MNode) (h : 2 ≤ l.length) :
    (buildPairs H (padEven l)).length = (l.length + l.length % 2) / 2
    ∧ 1 ≤ (buildPairs H (padEven l)).length
    ∧ (buildPairs H (padEven l)).length < l.length := by
  have h1 := buildPairs_length H (padEven l)
  have h2 := padEven_length l
  refine ⟨by omega, by omega, by omega⟩

/-- The fuel argument of `buildRecF` is irrelevant once it covers the
level length. -/
theorem buildRecF_congr (H : HashFun) :
    ∀ (l : List MNode) (f₁ f₂ : Nat) (m : NodeMap),
      l.length ≤ f₁ + 1 → l.length ≤ f₂ + 1 →
      buildRecF H f₁ l m = buildRecF H f₂ l m
  | [], f₁, f₂, m, _, _ => by
      cases f₁ <;> cases f₂ <;> rfl
  | [n], f₁, f₂, m, _, _ => by
      cases f₁ <;> cases f₂ <;> rfl
  | a :: b :: rest, f₁, f₂, m, h₁, h₂ => by
      have hlen : 2 ≤ (a :: b :: rest).length := by simp
      have hnext := nextLevel_length H (a :: b :: rest) hlen
      cases f₁ with
      | zero => simp at h₁
      | succ g₁ =>
          cases f₂ with
          | zero => simp at h₂
          | succ g₂ =>
              rw [buildRecF, buildRecF]
              exact buildRecF_congr H _ g₁ g₂ _ (by omega) (by omega)
termination_by l => l.length
decreasing_by
  simp only [buildPairs_length, padEven_length, List.length_cons]
  omega

/-- The level-reduction equation for two or more nodes, with the fuel
hidden. -/
theorem buildRec_cons (H : HashFun) (l : List MNode) (m : NodeMap)
    (h : 2 ≤ l.length) :
    buildRec H l m =
      buildRec H (buildPairs H (padEven l)) (insertAll m (buildPairs H (padEven l))) := by
  obtain ⟨a, b, rest, rfl⟩ : ∃ a b rest, l = a :: b :: rest := by
    match l, h with
    | a :: b :: rest, _ => exact ⟨a, b, rest, rfl⟩
  have hnext := nextLevel_length H (a :: b :: rest) h
  simp only [List.length_cons] at hnext
  unfold buildRec
  rw [show (a :: b :: rest).length = rest.length + 2 by simp, buildRecF]
  exact buildRecF_congr H (buildPairs H (padEven (a :: b :: rest)))
    (rest.length + 1) (buildPairs H (padEven (a :: b :: rest))).length _
    (by omega) (by omega)

/-- The leaf-creation loop of `buildTree`: one leaf per key, hash
`H key`, payload index equal to the position. -/
def mkLeaves (H : HashFun) : List String → Nat → List MNode
  | [], _ => []
  | k :: rest, i => MNode.leaf (H k) k i :: mkLeaves H rest (i + 1)

/-- The MerkleTree object state: `root`, `leaves`, `nodes`. -/
structure MerkleTree where
  root : Option MNode
  leaves : List MNode
  nodes : NodeMap
deriving DecidableEq, Repr, Inhabited

/-- MerkleTree.buildTree on a fresh tree (`new MerkleTree()` followed by
`buildTree(publicKeys)`, the only way the system builds).  `none` models
the thrown error on an empty key list.  Because `_buildTreeRecursive`
receives the `this.leaves` array itself, the odd-level padding of the
first level mutates the stored leaf array: with more than one leaf the
stored array is `padEven` of the created leaves. -/
def MerkleTree.buildTree (H : HashFun) (keys : List String) :
    Option MerkleTree :=
  match mkLeaves H keys 0 with
  | [] => none
  | l :: ls =>
      match buildRec H (l :: ls) (insertAll [] (l :: ls)) with
      | some (r, m) =>
          some { root := some r
                 leaves := if ls = [] then [l] else padEven (l :: ls)
                 nodes := m }
      | none => none

/-- MerkleTree.getRootHash (null when unbuilt). -/
def MerkleTree.getRootHash (t : MerkleTree) : Option String :=
  t.root.map MNode.hash

/-- One step of a membership-proof path:
`{hash: sibling.hash, isLeft: sibling-is-on-the-left, level}`. -/
structure PathStep where
  hash : String
  isLeft : Bool
  level : Nat
deriving DecidableEq, Repr

/-- A membership proof. -/
structure MembershipProof where
  leafHash : String
  leafIndex : Nat
  path : List PathStep
  rootHash : Option String
deriving DecidableEq, Repr, Inhabited

/-- MerkleTree._findParent: scan the node map in insertion order for
the first non-leaf entry having `node` as a child (object identity). -/
def isParentOf (q : MNode) (node : MNode) : Bool :=
  (q.leftChild == some node || q.rightChild == some node) && !q.isLeaf

/-- The map scan of `_findParent`. -/
def findParent (m : NodeMap) (node : MNode) : Option MNode :=
  (m.find? (fun p => isParentOf p.2 node)).map (fun p => p.2)

/-- The upward walk of `generateMembershipProof`: stop at the root (or
when no parent is found), otherwise record the sibling's hash, its
side (inverted: `isLeft` means the sibling is on the left), and the
current path length as the level, then continue from the parent.  The
fuel argument totalises the JavaScript `while` loop; every call below
supplies more fuel than the walk can consume on a built tree. -/
def proofWalk (m : NodeMap) (root : Option MNode) :
    Nat → MNode → List PathStep → List PathStep
  | 0, _, acc => acc
  | fuel + 1, cur, acc =>
      if some cur = root then acc
      else
        match findParent m cur with
        | none => acc
        | some (MNode.leaf _ _ _) => acc
        | some (MNode.inner ph l r) =>
            let isLeftChild : Bool := l == cur
            let sibling := if isLeftChild then r else l
            proofWalk m root fuel (MNode.inner ph l r)
              (acc ++ [{ hash := sibling.hash
                         isLeft := !isLeftChild
                         level := acc.length }])

/-- MerkleTree.generateMembershipProof.  `none` models the thrown
NotFound error when no leaf matches the recomputed user hash. -/
def MerkleTree.generateMembershipProof (t : MerkleTree) (H : HashFun)
    (publicKey : String) : Option MembershipProof :=
  let userHash := generateUserId H publicKey
  match t.leaves.find? (fun l => l.hash == userHash) with
  | none => none
  | some leaf =>
      some { leafHash := userHash
             leafIndex := leaf.index
             path := proofWalk t.nodes t.root (t.nodes.length + 1) leaf []
             rootHash := t.getRootHash }

/-- The verification fold of `verifyMembershipProof`: starting from the
leaf hash, combine with each step's sibling hash on the recorded side. -/
def foldPath (H : HashFun) (leafHash : String) (path : List PathStep) : String :=
  path.foldl
    (fun cur step =>
      if step.isLeft then combineHashes H step.hash cur
      else combineHashes H cur step.hash)
    leafHash

/-- MerkleTree.verifyMembershipProof: a pure function of the proof and
the hash primitive alone (the method reads no tree state); the folded
hash must equal `proof.rootHash` exactly (a null root hash never
matches). -/
def MerkleTree.verifyMembershipProof (H : HashFun)
    (proof : MembershipProof) : Bool :=
  some (foldPath H proof.leafHash proof.path) == proof.rootHash

/-- MerkleTree._calculateHeight: 1 on leaves, otherwise one more than
the larger child height (children of created internal nodes are never
null). -/
def MNode.calcHeight : MNode → Nat
  | .leaf .. => 1
  | .inner _ l r => 1 + max l.calcHeight r.calcHeight

/-- The record returned by `getTreeStats`. -/
structure TreeStats where
  totalNodes : Nat
  leafNodes : Nat
  treeHeight : Nat
  rootHash : Option String
deriving DecidableEq, Repr

/-- MerkleTree.getTreeStats. -/
def MerkleTree.getTreeStats (t : MerkleTree) : TreeStats :=
  match t.root with
  | none => { totalNodes := 0, leafNodes := 0, treeHeight := 0, rootHash := none }
  | some r =>
      { totalNodes := t.nodes.length
        leafNodes := t.leaves.length
        treeHeight := r.calcHeight
        rootHash := some r.hash }

/-! ## The ZKProofSystem (zk-proof.js) -/

/-- The error taxonomy of the design (RangeError, NotFound, StateError,
InvalidArgument); thrown JavaScript errors are modelled as `Except`
errors of this type. -/
inductive JsError where
  | rangeError
  | notFoundError
  | stateError
  | invalidArgument
deriving DecidableEq, Repr

/-- A `userKeys` entry: `{publicKey, userId, userIndex}`. -/
structure UserData where
  publicKey : String
  userId : String
  userIndex : Nat
deriving DecidableEq, Repr

/-- A commitment `{hash, randomness, timestamp}` with
`hash = H(publicKey ++ randomness)`. -/
structure Commitment where
  hash : String
  randomness : String
  timestamp : Int
deriving DecidableEq, Repr, Inhabited

/-- A response `{hash, data, timestamp}` with
`data = randomness ++ challenge` and `hash = H(data)`. -/
structure ZKResponse where
  hash : String
  data : String
  timestamp : Int
deriving DecidableEq, Repr, Inhabited

/-- A proof bundle as assembled by `generateZKProof`. -/
structure ZKProof where
  commitment : Commitment
  challenge : String
  response : ZKResponse
  membershipProof : MembershipProof
  timestamp : Int
  userIndex : Nat
deriving DecidableEq, Repr, Inhabited

/-- The ZKProofSystem object state. -/
structure ZKProofSystem where
  merkleTree : Option MerkleTree
  userKeys : List (Nat × UserData)
  currentProof : Option ZKProof
deriving DecidableEq, Repr

/-- The state of a freshly constructed ZKProofSystem. -/
def ZKProofSystem.init : ZKProofSystem :=
  { merkleTree := none, userKeys := [], currentProof := none }

/-- String rendering of a possibly-null hash, as JavaScript string
concatenation renders it (`null` prints as "null"). -/
def jsStr : Option String → String
  | some s => s
  | none => "null"

/-- ZKProofSystem._generateChallenge: Fiat-Shamir style,
`H(commitment.hash ++ rootHash ++ leafHash)`. -/
def generateChallenge (H : HashFun) (commitment : Commitment)
    (mp : MembershipProof) : String :=
  H (commitment.hash ++ jsStr mp.rootHash ++ mp.leafHash)

/-- ZKProofSystem._verifyResponse: recompute
`H(randomness ++ challenge)` and compare to the response hash. -/
def verifyResponse (H : HashFun) (proof : ZKProof) : Bool :=
  H (proof.commitment.randomness ++ proof.challenge) == proof.response.hash

/-- ZKProofSystem._verifyTimestamp: the proof age `now - timestamp`
must not exceed the fixed five-minute window. -/
def verifyTimestamp (timestamp : Int) (now : Int) : Bool :=
  now - timestamp ≤ 5 * 60 * 1000

/-- The record returned by `initializeSystem` (the per-user preview list
carries the truncated user id and public key). -/
structure InitResult where
  userCount : Int
  rootHash : Option String
  treeStats : TreeStats
  users : List (Nat × String × String)
deriving DecidableEq, Repr

/-- ZKProofSystem.initializeSystem.  Key generation
(`CryptoUtils.generatePublicKey`, a secure random source) is supplied as
the oracle `genKey`.  The count guard runs before any mutation, so an
out-of-range count leaves the state untouched; the second component of
the result is the state after the call. -/
def initSystem (H : HashFun) (genKey : Nat → String)
    (sys : ZKProofSystem) (userCount : Int) :
    Except JsError InitResult × ZKProofSystem :=
  if userCount < 2 ∨ userCount > 32 then (.error .rangeError, sys)
  else
    let n := userCount.toNat
    let publicKeys := (List.range n).map genKey
    let userKeys := (List.range n).map
      (fun i => (i, { publicKey := genKey i
                      userId := generateUserId H (genKey i)
                      userIndex := i : UserData }))
    match MerkleTree.buildTree H publicKeys with
    | some t =>
        (.ok { userCount := userCount
               rootHash := t.getRootHash
               treeStats := t.getTreeStats
               users := userKeys.map (fun p =>
                 (p.1, truncateHash p.2.userId 8, truncateHash p.2.publicKey 8)) },
         { merkleTree := some t, userKeys := userKeys
           currentProof := sys.currentProof })
    | none =>
        (.error .rangeError,
         { merkleTree := some default, userKeys := userKeys
           currentProof := sys.currentProof })

/-- ZKProofSystem.generateZKProof.  The fresh randomness of
`_generateCommitment` (`CryptoUtils.generateSalt(32)`) is supplied as
`randomness`; `now` is `Date.now()`.  Returns the assembled bundle and
the state with `currentProof` updated. -/
def generateZKProof (H : HashFun) (randomness : String)
    (sys : ZKProofSystem) (userIndex : Nat) (now : Int) :
    Except JsError (ZKProof × ZKProofSystem) :=
  match sys.merkleTree with
  | none => .error .stateError
  | some tree =>
      match sys.userKeys.lookup userIndex with
      | none => .error .notFoundError
      | some userData =>
          match tree.generateMembershipProof H userData.publicKey with
          | none => .error .notFoundError
          | some mp =>
              let commitment : Commitment :=
                { hash := H (userData.publicKey ++ randomness)
                  randomness := randomness, timestamp := now }
              let challenge := generateChallenge H commitment mp
              let response : ZKResponse :=
                { hash := H (randomness ++ challenge)
                  data := randomness ++ challenge, timestamp := now }
              let proof : ZKProof :=
                { commitment := commitment, challenge := challenge
                  response := response, membershipProof := mp
                  timestamp := now, userIndex := userIndex }
              .ok (proof, { sys with currentProof := some proof })

/-- One entry of the verification report's step list. -/
structure VerificationStep where
  step : String
  result : Bool
  details : String
deriving DecidableEq, Repr

/-- The `summary` record of a verification report. -/
structure VerificationSummary where
  totalSteps : Nat
  passedSteps : Nat
  finalResult : String
deriving DecidableEq, Repr

/-- The structured report returned by `verifyZKProof`. -/
structure VerificationReport where
  isValid : Bool
  verificationSteps : List VerificationStep
  summary : VerificationSummary
deriving DecidableEq, Repr

/-- The try-block of `verifyZKProof`.  When `this.merkleTree` is null
the very first statement of the block faults (a property read on null)
before any step is pushed; the catch clause then records the single
synthetic failed step.  With a tree present nothing in the block can
fault and the four checks run unconditionally in order, each appending
its step and demoting `isValid` on failure. -/
def verifyStepsRun (H : HashFun) (tree? : Option MerkleTree)
    (proof : ZKProof) (now : Int) : List VerificationStep × Bool :=
  match tree? with
  | none =>
      ([{ step := "验证过程", result := false
          details := "验证过程出错: Cannot read properties of null" }],
       false)
  | some _ =>
      let isValid0 := true
      let membershipValid := MerkleTree.verifyMembershipProof H proof.membershipProof
      let steps1 := [{ step := "默克尔树成员证明验证"
                       result := membershipValid
                       details := if membershipValid then "用户确实属于注册用户集合"
                                  else "用户不属于注册用户集合" : VerificationStep }]
      let isValid1 := if !membershipValid then false else isValid0
      let challengeValid :=
        generateChallenge H proof.commitment proof.membershipProof == proof.challenge
      let steps2 := steps1 ++ [{ step := "挑战值验证"
                                 result := challengeValid
                                 details := if challengeValid then "挑战值正确生成"
                                            else "挑战值不匹配" }]
      let isValid2 := if !challengeValid then false else isValid1
      let responseValid := verifyResponse H proof
      let steps3 := steps2 ++ [{ step := "响应一致性验证"
                                 result := responseValid
                                 details := if responseValid then "响应与承诺和挑战一致"
                                            else "响应验证失败" }]
      let isValid3 := if !responseValid then false else isValid2
      let timestampValid := verifyTimestamp proof.timestamp now
      let steps4 := steps3 ++ [{ step := "时间戳验证"
                                 result := timestampValid
                                 details := if timestampValid then "证明在有效时间窗口内"
                                            else "证明已过期" }]
      let isValid4 := if !timestampValid then false else isValid3
      (steps4, isValid4)

/-- ZKProofSystem.verifyZKProof: throws InvalidArgument on a null
bundle, otherwise always returns a structured report whose summary
counts the recorded steps and passed steps. -/
def verifyZKProof (H : HashFun) (sys : ZKProofSystem)
    (proof? : Option ZKProof) (now : Int) :
    Except JsError VerificationReport :=
  match proof? with
  | none => .error .invalidArgument
  | some proof =>
      let r := verifyStepsRun H sys.merkleTree proof now
      .ok { isValid := r.2
            verificationSteps := r.1
            summary := { totalSteps := r.1.length
                         passedSteps := (r.1.filter (fun s => s.result)).length
                         finalResult := if r.2 then "证明有效" else "证明无效" } }

/-- ZKProofSystem.reset. -/
def ZKProofSystem.reset (_sys : ZKProofSystem) : ZKProofSystem :=
  ZKProofSystem.init

/-- Whether an `Except` result is a normal return. -/
def exceptOk {ε α : Type} : Except ε α → Bool
  | .ok _ => true
  | .error _ => false

/-- A concrete instantiation of the hash primitive used for witnesses
and counterexamples: prefix a marker character.  This is a fixed,
deterministic, injective function. -/
def Hc (s : String) : String := "#" ++ s

/-! ## Analysis helpers: the level structure of a build

The following definitions are not part of the source; they name, as
plain functions of the level lists, the nodes the build creates and the
path the upward walk records, so that theorems can speak about them. -/

/-- All internal nodes the level reduction creates strictly above the
given level, in creation order (fuelled like `buildRecF` so that it
evaluates; the wrapper below supplies always-sufficient fuel). -/
def futureNodesF (H : HashFun) : Nat → List MNode → List MNode
  | _, [] => []
  | _, [_] => []
  | 0, _ :: _ :: _ => []
  | fuel + 1, a :: b :: rest =>
      let next := buildPairs H (padEven (a :: b :: rest))
      next ++ futureNodesF H fuel next

/-- All internal nodes the level reduction creates strictly above the
given level, in creation order. -/
def futureNodes (H : HashFun) (lvl : List MNode) : List MNode :=
  futureNodesF H lvl.length lvl

/-- The fuel argument of `futureNodesF` is irrelevant once it covers
the level length. -/
theorem futureNodesF_congr (H : HashFun) :
    ∀ (l : List MNode) (f₁ f₂ : Nat),
      l.length ≤ f₁ + 1 → l.length ≤ f₂ + 1 →
      futureNodesF H f₁ l = futureNodesF H f₂ l
  | [], f₁, f₂, _, _ => by cases f₁ <;> cases f₂ <;> rfl
  | [n], f₁, f₂, _, _ => by cases f₁ <;> cases f₂ <;> rfl
  | a :: b :: rest, f₁, f₂, h₁, h₂ => by
      have hlen : 2 ≤ (a :: b :: rest).length := by simp
      have hnext := nextLevel_length H (a :: b :: rest) hlen
      cases f₁ with
      | zero => simp at h₁
      | succ g₁ =>
          cases f₂ with
          | zero => simp at h₂
          | succ g₂ =>
              rw [futureNodesF, futureNodesF]
              rw [futureNodesF_congr H _ g₁ g₂ (by omega) (by omega)]
termination_by l => l.length
decreasing_by
  simp only [buildPairs_length, padEven_length, List.length_cons]
  omega

/-- The recursion equation of `futureNodes` for two or more nodes. -/
theorem futureNodes_cons (H : HashFun) (l : List MNode) (h : 2 ≤ l.length) :
    futureNodes H l =
      buildPairs H (padEven l) ++ futureNodes H (buildPairs H (padEven l)) := by
  obtain ⟨a, b, rest, rfl⟩ : ∃ a b rest, l = a :: b :: rest := by
    match l, h with
    | a :: b :: rest, _ => exact ⟨a, b, rest, rfl⟩
  have hnext := nextLevel_length H (a :: b :: rest) h
  simp only [List.length_cons] at hnext
  unfold futureNodes
  rw [show (a :: b :: rest).length = rest.length + 2 by simp, futureNodesF]
  rw [futureNodesF_congr H (buildPairs H (padEven (a :: b :: rest)))
    (rest.length + 1) (buildPairs H (padEven (a :: b :: rest))).length
    (by omega) (by omega)]

/-- The root node the level reduction returns (fuelled). -/
def rootOfF (H : HashFun) : Nat → List MNode → MNode
  | _, [] => default
  | _, [n] => n
  | 0, _ :: _ :: _ => default
  | fuel + 1, a :: b :: rest =>
      rootOfF H fuel (buildPairs H (padEven (a :: b :: rest)))

/-- The root node the level reduction returns. -/
def rootOf (H : HashFun) (lvl : List MNode) : MNode :=
  rootOfF H lvl.length lvl

/-- The fuel argument of `rootOfF` is irrelevant once it covers the
level length. -/
theorem rootOfF_congr (H : HashFun) :
    ∀ (l : List MNode) (f₁ f₂ : Nat),
      l.length ≤ f₁ + 1 → l.length ≤ f₂ + 1 →
      rootOfF H f₁ l = rootOfF H f₂ l
  | [], f₁, f₂, _, _ => by cases f₁ <;> cases f₂ <;> rfl
  | [n], f₁, f₂, _, _ => by cases f₁ <;> cases f₂ <;> rfl
  | a :: b :: rest, f₁, f₂, h₁, h₂ => by
      have hlen : 2 ≤ (a :: b :: rest).length := by simp
      have hnext := nextLevel_length H (a :: b :: rest) hlen
      simp only [List.length_cons] at hnext h₁ h₂
      cases f₁ with
      | zero => simp at h₁
      | succ g₁ =>
          cases f₂ with
          | zero => simp at h₂
          | succ g₂ =>
              rw [rootOfF, rootOfF]
              exact rootOfF_congr H _ g₁ g₂ (by omega) (by omega)
termination_by l => l.length
decreasing_by
  simp only [buildPairs_length, padEven_length, List.length_cons]
  omega

/-- The recursion equation of `rootOf` for two or more nodes. -/
theorem rootOf_cons (H : HashFun) (l : List MNode) (h : 2 ≤ l.length) :
    rootOf H l = rootOf H (buildPairs H (padEven l)) := by
  obtain ⟨a, b, rest, rfl⟩ : ∃ a b rest, l = a :: b :: rest := by
    match l, h with
    | a :: b :: rest, _ => exact ⟨a, b, rest, rfl⟩
  have hnext := nextLevel_length H (a :: b :: rest) h
  simp only [List.length_cons] at hnext
  unfold rootOf
  rw [show (a :: b :: rest).length = rest.length + 2 by simp, rootOfF]
  exact rootOfF_congr H (buildPairs H (padEven (a :: b :: rest)))
    (rest.length + 1) (buildPairs H (padEven (a :: b :: rest))).length
    (by omega) (by omega)

/-- Locate the pair of an (even-length, padded) level containing `n`
and return the recorded sibling hash, the recorded side flag, and the
created parent node. -/
def pairStep (H : HashFun) : List MNode → MNode → Option (String × Bool × MNode)
  | a :: b :: rest, n =>
      if n = a then
        some (b.hash, false, MNode.inner (combineHashes H a.hash b.hash) a b)
      else if n = b then
        some (a.hash, true, MNode.inner (combineHashes H a.hash b.hash) a b)
      else pairStep H rest n
  | _, _ => none

/-- The sibling-hash/side sequence the upward walk records from a node
of the given level to the root (fuelled). -/
def walkSidesF (H : HashFun) : Nat → List MNode → MNode → List (String × Bool)
  | _, [], _ => []
  | _, [_], _ => []
  | 0, _ :: _ :: _, _ => []
  | fuel + 1, a :: b :: rest, n =>
      match pairStep H (padEven (a :: b :: rest)) n with
      | none => []
      | some (sh, side, p) =>
          (sh, side) :: walkSidesF H fuel (buildPairs H (padEven (a :: b :: rest))) p

/-- The sibling-hash/side sequence the upward walk records from a node
of the given level to the root. -/
def walkSides (H : HashFun) (lvl : List MNode) (n : MNode) :
    List (String × Bool) :=
  walkSidesF H lvl.length lvl n

/-- The fuel argument of `walkSidesF` is irrelevant once it covers the
level length. -/
theorem walkSidesF_congr (H : HashFun) :
    ∀ (l : List MNode) (f₁ f₂ : Nat) (n : MNode),
      l.length ≤ f₁ + 1 → l.length ≤ f₂ + 1 →
      walkSidesF H f₁ l n = walkSidesF H f₂ l n
  | [], f₁, f₂, _, _, _ => by cases f₁ <;> cases f₂ <;> rfl
  | [m], f₁, f₂, _, _, _ => by cases f₁ <;> cases f₂ <;> rfl
  | a :: b :: rest, f₁, f₂, n, h₁, h₂ => by
      have hlen : 2 ≤ (a :: b :: rest).length := by simp
      have hnext := nextLevel_length H (a :: b :: rest) hlen
      simp only [List.length_cons] at hnext h₁ h₂
      cases f₁ with
      | zero => simp at h₁
      | succ g₁ =>
          cases f₂ with
          | zero => simp at h₂
          | succ g₂ =>
              rw [walkSidesF, walkSidesF]
              cases pairStep H (padEven (a :: b :: rest)) n with
              | none => rfl
              | some t =>
                  obtain ⟨sh, side, p⟩ := t
                  simp only []
                  rw [walkSidesF_congr H _ g₁ g₂ p (by omega) (by omega)]
termination_by l => l.length
decreasing_by
  simp only [buildPairs_length, padEven_length, List.length_cons]
  omega

/-- The recursion equation of `walkSides` for two or more nodes. -/
theorem walkSides_cons (H : HashFun) (l : List MNode) (n : MNode)
    (h : 2 ≤ l.length) :
    walkSides H l n =
      match pairStep H (padEven l) n with
      | none => []
      | some (sh, side, p) =>
          (sh, side) :: walkSides H (buildPairs H (padEven l)) p := by
  obtain ⟨a, b, rest, rfl⟩ : ∃ a b rest, l = a :: b :: rest := by
    match l, h with
    | a :: b :: rest, _ => exact ⟨a, b, rest, rfl⟩
  have hnext := nextLevel_length H (a :: b :: rest) h
  simp only [List.length_cons] at hnext
  unfold walkSides
  rw [show (a :: b :: rest).length = rest.length + 2 by simp, walkSidesF]
  cases pairStep H (padEven (a :: b :: rest)) n with
  | none => rfl
  | some t =>
      obtain ⟨sh, side, p⟩ := t
      simp only []
      rw [walkSidesF_congr H _ (rest.length + 1)
        (buildPairs H (padEven (a :: b :: rest))).length p (by omega) (by omega)]

/-- Attach consecutive level numbers to a sibling-hash/side sequence. -/
def mkSteps : List (String × Bool) → Nat → List PathStep
  | [], _ => []
  | (h, b) :: rest, i => { hash := h, isLeft := b, level := i } :: mkSteps rest (i + 1)

/-- The verification fold over a bare sibling-hash/side sequence. -/
def foldSides (H : HashFun) (x : String) (sides : List (String × Bool)) : String :=
  sides.foldl
    (fun cur sb =>
      if sb.2 then combineHashes H sb.1 cur else combineHashes H cur sb.1)
    x

/-- Every node a build from the given keys creates (leaves first, then
each level's parents in creation order). -/
def createdNodes (H : HashFun) (keys : List String) : List MNode :=
  mkLeaves H keys 0 ++ futureNodes H (mkLeaves H keys 0)

/-- The hashes of all created nodes. -/
def createdHashes (H : HashFun) (keys : List String) : List String :=
  (createdNodes H keys).map MNode.hash

/-! ## Concrete witness data -/

/-- A concrete two-leaf tree. -/
def wTree : MerkleTree := (MerkleTree.buildTree Hc ["a", "b"]).getD default

/-- A concrete initialized system over `wTree`. -/
def wSys : ZKProofSystem :=
  { merkleTree := some wTree
    userKeys := [(0, { publicKey := "a", userId := Hc "a", userIndex := 0 }),
                 (1, { publicKey := "b", userId := Hc "b", userIndex := 1 })]
    currentProof := none }

/-- A concrete valid proof bundle generated at time 0 for user 0. -/
def wBundle : ZKProof :=
  match generateZKProof Hc "cc" wSys 0 0 with
  | .ok p => p.1
  | .error _ => default

/-- A concrete three-leaf tree built from distinct keys (odd leaf
count). -/
def w3Tree : MerkleTree := (MerkleTree.buildTree Hc ["a", "b", "c"]).getD default

/-- A helper proof object used by the tamper-sensitivity witness: a
valid one-step membership proof under `Hc`. -/
def pW : MembershipProof :=
  { leafHash := Hc "a", leafIndex := 0
    path := [{ hash := Hc "b", isLeft := false, level := 0 }]
    rootHash := some (Hc (Hc "a" ++ Hc "b")) }

/-! ## Basic lemmas -/

/-- Entries distribute over node-list append. -/
theorem nodeEntries_append (xs ys : List MNode) :
    nodeEntries (xs ++ ys) = nodeEntries xs ++ nodeEntries ys := by
  simp [nodeEntries]

/-- The keys of the entries of a node list are its hashes. -/
theorem nodeEntries_keys (ns : List MNode) :
    (nodeEntries ns).map Prod.fst = ns.map MNode.hash := by
  simp [nodeEntries, List.map_map]

/-- Setting a fresh key appends the binding. -/
theorem jsMapSet_fresh (m : NodeMap) (k : String) (v : MNode)
    (h : ∀ p ∈ m, p.1 ≠ k) : jsMapSet m k v = m ++ [(k, v)] := by
  unfold jsMapSet
  rw [if_neg]
  simp only [List.any_eq_true, beq_iff_eq, not_exists]
  intro p hpk
  rcases hpk with ⟨hp, hk⟩
  exact h p hp hk

/-- Inserting nodes whose hashes are fresh and pairwise distinct
appends their entries in order. -/
theorem insertAll_fresh :
    ∀ (ns : List MNode) (m : NodeMap),
      ((m.map Prod.fst) ++ ns.map MNode.hash).Nodup →
      insertAll m ns = m ++ nodeEntries ns
  | [], m, _ => by simp [insertAll, nodeEntries]
  | n :: rest, m, hnd => by
      have hnd' : ((m.map Prod.fst) ++ (n.hash :: rest.map MNode.hash)).Nodup := by
        simpa using hnd
      have hdisj := List.disjoint_of_nodup_append hnd'
      have hfresh : ∀ p ∈ m, p.1 ≠ n.hash := by
        intro p hp hk
        exact hdisj (List.mem_map_of_mem Prod.fst hp) (by simp [hk])
      have hstep : insertAll m (n :: rest) = insertAll (m ++ [(n.hash, n)]) rest := by
        simp [insertAll, jsMapSet_fresh m n.hash n hfresh]
      rw [hstep, insertAll_fresh rest (m ++ [(n.hash, n)])]
      · simp [nodeEntries]
      · simpa [List.append_assoc] using hnd'

/-- Padding preserves membership downward. -/
theorem mem_padEven {l : List MNode} {x : MNode} (hx : x ∈ padEven l) :
    x ∈ l := by
  unfold padEven at hx
  split at hx
  · rcases List.mem_append.mp hx with h | h
    · exact h
    · have hne : l ≠ [] := by
        rintro rfl
        simp_all
      simp at h
      subst h
      rw [List.getLast?_eq_getLast_of_ne_nil hne]
      simpa using List.getLast_mem hne
  · exact hx

/-- Padding preserves membership upward. -/
theorem mem_padEven_of_mem {l : List MNode} {x : MNode} (hx : x ∈ l) :
    x ∈ padEven l := by
  unfold padEven
  split
  · exact List.mem_append_left _ hx
  · exact hx

/-- A padded level has even length. -/
theorem padEven_even (l : List MNode) : (padEven l).length % 2 = 0 := by
  rw [padEven_length]
  omega

/-- Every created pair node is an internal node whose children come
from the paired level. -/
theorem buildPairs_children (H : HashFun) :
    ∀ (xs : List MNode) (p : MNode), p ∈ buildPairs H xs →
      ∃ a b, p = MNode.inner (combineHashes H a.hash b.hash) a b ∧ a ∈ xs ∧ b ∈ xs
  | [], _, h => by simp [buildPairs] at h
  | [_], _, h => by simp [buildPairs] at h
  | a :: b :: rest, p, h => by
      rw [buildPairs] at h
      rcases List.mem_cons.mp h with h | h
      · exact ⟨a, b, h, by simp, by simp⟩
      · obtain ⟨x, y, hxy, hx, hy⟩ := buildPairs_children H rest p h
        exact ⟨x, y, hxy, by simp [hx], by simp [hy]⟩

/-- Created leaves have no children. -/
theorem mkLeaves_no_children (H : HashFun) :
    ∀ (ks : List String) (i : Nat) (x : MNode), x ∈ mkLeaves H ks i →
      x.leftChild = none ∧ x.rightChild = none
  | [], _, _, h => by simp [mkLeaves] at h
  | k :: rest, i, x, h => by
      rw [mkLeaves] at h
      rcases List.mem_cons.mp h with h | h
      · subst h
        exact ⟨rfl, rfl⟩
      · exact mkLeaves_no_children H rest (i + 1) x h

/-- Created leaves have height one. -/
theorem mkLeaves_calcHeight (H : HashFun) :
    ∀ (ks : List String) (i : Nat) (x : MNode), x ∈ mkLeaves H ks i →
      x.calcHeight = 1
  | [], _, _, h => by simp [mkLeaves] at h
  | k :: rest, i, x, h => by
      rw [mkLeaves] at h
      rcases List.mem_cons.mp h with h | h
      · subst h
        rfl
      · exact mkLeaves_calcHeight H rest (i + 1) x h

/-- Every key in the list has its leaf among the created leaves. -/
theorem mkLeaves_exists_key (H : HashFun) :
    ∀ (ks : List String) (i : Nat) (k : String), k ∈ ks →
      ∃ j, MNode.leaf (H k) k j ∈ mkLeaves H ks i
  | [], _, _, h => absurd h (by simp)
  | k' :: rest, i, k, h => by
      rw [mkLeaves]
      rcases List.mem_cons.mp h with h | h
      · subst h
        exact ⟨i, List.mem_cons_self _ _⟩
      · obtain ⟨j, hj⟩ := mkLeaves_exists_key H rest (i + 1) k h
        exact ⟨j, List.mem_cons_of_mem _ hj⟩

/-- The verification fold ignores the level numbering attached by
`mkSteps`. -/
theorem foldPath_mkSteps (H : HashFun) :
    ∀ (sides : List (String × Bool)) (x : String) (i : Nat),
      foldPath H x (mkSteps sides i) = foldSides H x sides
  | [], _, _ => rfl
  | (sh, sd) :: rest, x, i => by
      simp only [mkSteps, foldPath, foldSides, List.foldl_cons]
      exact foldPath_mkSteps H rest _ (i + 1)

/-- Finding a parent among entries is finding it among the nodes. -/
theorem find?_nodeEntries (ns : List MNode) (n : MNode) :
    (nodeEntries ns).find? (fun p => isParentOf p.2 n)
      = (ns.find? (fun x => isParentOf x n)).map (fun q => (q.hash, q)) := by
  induction ns with
  | nil => rfl
  | cons q rest ih =>
      have he : nodeEntries (q :: rest) = (q.hash, q) :: nodeEntries rest := rfl
      rw [he]
      by_cases hq : isParentOf q n = true
      · rw [@List.find?_cons_of_pos (String × MNode) (fun p => isParentOf p.2 n)
            (q.hash, q) (nodeEntries rest) (by simpa using hq),
          @List.find?_cons_of_pos MNode (fun x => isParentOf x n) q rest hq]
        rfl
      · rw [@List.find?_cons_of_neg (String × MNode) (fun p => isParentOf p.2 n)
            (q.hash, q) (nodeEntries rest) (by simpa using hq),
          @List.find?_cons_of_neg MNode (fun x => isParentOf x n) q rest hq]
        exact ih

/-- A node with different children (or none) is not found as parent. -/
theorem isParentOf_false_of (q n : MNode) (hl : q.leftChild ≠ some n)
    (hr : q.rightChild ≠ some n) : isParentOf q n = false := by
  simp [isParentOf, hl, hr]

/-- String concatenation cancels on the right. -/
theorem string_append_right_cancel {x y s : String} (h : x ++ s = y ++ s) :
    x = y := by
  apply String.ext
  have hd := congrArg String.data h
  rw [String.data_append, String.data_append] at hd
  exact List.append_cancel_right hd

/-- String concatenation cancels on the left. -/
theorem string_append_left_cancel {x y s : String} (h : s ++ x = s ++ y) :
    x = y := by
  apply String.ext
  have hd := congrArg String.data h
  rw [String.data_append, String.data_append] at hd
  exact List.append_cancel_left hd

/-- The concrete hash `Hc` is injective. -/
theorem Hc_injective : Function.Injective Hc := by
  intro a b h
  unfold Hc at h
  exact string_append_left_cancel h

/-- One leaf is created per key. -/
theorem mkLeaves_length (H : HashFun) :
    ∀ (ks : List String) (i : Nat), (mkLeaves H ks i).length = ks.length
  | [], _ => rfl
  | _ :: rest, i => by simp [mkLeaves, mkLeaves_length H rest (i + 1)]

/-- The level reduction always returns a root on a non-empty level. -/
theorem buildRec_isSome (H : HashFun) :
    ∀ (lvl : List MNode) (m : NodeMap), lvl ≠ [] → (buildRec H lvl m).isSome
  | [], _, h => absurd rfl h
  | [n], m, _ => by simp [buildRec, buildRecF]
  | a :: b :: rest, m, _ => by
      have hlen : 2 ≤ (a :: b :: rest).length := by simp
      have hnext := nextLevel_length H (a :: b :: rest) hlen
      rw [buildRec_cons H _ _ hlen]
      apply buildRec_isSome
      intro hnil
      rw [hnil] at hnext
      simp at hnext
termination_by lvl m => lvl.length
decreasing_by
  simp only [buildPairs_length, padEven_length, List.length_cons]
  omega

/-- Building from a non-empty key list succeeds. -/
theorem buildTree_isSome (H : HashFun) (keys : List String) (hk : keys ≠ []) :
    (MerkleTree.buildTree H keys).isSome := by
  have hlen : (mkLeaves H keys 0).length = keys.length := mkLeaves_length H keys 0
  cases hml : mkLeaves H keys 0 with
  | nil =>
      rw [hml] at hlen
      exact absurd (List.eq_nil_of_length_eq_zero hlen.symm) hk
  | cons l ls =>
      have hbr := buildRec_isSome H (l :: ls) (insertAll [] (l :: ls)) (by simp)
      rw [Option.isSome_iff_exists] at hbr
      obtain ⟨⟨r, m⟩, hrm⟩ := hbr
      rw [MerkleTree.buildTree, hml]
      simp [hrm]

/-! ## Build characterisation -/

/-- Characterisation of the build on a level with globally fresh
hashes: the reduction returns the root given by `rootOf` and appends
the entries of all the nodes it creates, in creation order, with no
overwriting. -/
theorem buildRec_eq_future (H : HashFun) :
    ∀ (lvl : List MNode) (m : NodeMap), lvl ≠ [] →
      ((m.map Prod.fst) ++ (futureNodes H lvl).map MNode.hash).Nodup →
      buildRec H lvl m = some (rootOf H lvl, m ++ nodeEntries (futureNodes H lvl))
  | [], _, h, _ => absurd rfl h
  | [n], m, _, _ => by
      simp [buildRec, buildRecF, rootOf, rootOfF, futureNodes, futureNodesF, nodeEntries]
  | a :: b :: rest, m, _, hnd => by
      have hlen : 2 ≤ (a :: b :: rest).length := by simp
      have hnext := nextLevel_length H (a :: b :: rest) hlen
      rw [buildRec_cons H _ _ hlen, rootOf_cons H _ hlen]
      rw [futureNodes_cons H _ hlen] at hnd
      rw [List.map_append, ← List.append_assoc] at hnd
      have hnd1 : ((m.map Prod.fst)
          ++ (buildPairs H (padEven (a :: b :: rest))).map MNode.hash).Nodup :=
        (List.nodup_append.mp hnd).1
      rw [insertAll_fresh _ _ hnd1]
      have hne : buildPairs H (padEven (a :: b :: rest)) ≠ [] := by
        intro h0
        rw [h0] at hnext
        simp at hnext
      have hnd2 : (((m ++ nodeEntries (buildPairs H (padEven (a :: b :: rest)))).map Prod.fst)
          ++ (futureNodes H (buildPairs H (padEven (a :: b :: rest)))).map MNode.hash).Nodup := by
        rw [List.map_append, nodeEntries_keys]
        exact hnd
      rw [buildRec_eq_future H _ _ hne hnd2, futureNodes_cons H _ hlen,
        nodeEntries_append]
      simp [List.append_assoc]
termination_by lvl m => lvl.length
decreasing_by
  simp only [buildPairs_length, padEven_length, List.length_cons]
  omega

/-- The root of a level of two or more nodes is created above it. -/
theorem rootOf_mem_future (H : HashFun) :
    ∀ (lvl : List MNode), 2 ≤ lvl.length → rootOf H lvl ∈ futureNodes H lvl
  | [], h => by simp at h
  | [_], h => by simp at h
  | a :: b :: rest, h => by
      have hnext := nextLevel_length H (a :: b :: rest) h
      rw [rootOf_cons H _ h, futureNodes_cons H _ h]
      by_cases h1 : (buildPairs H (padEven (a :: b :: rest))).length = 1
      · obtain ⟨x, hx⟩ : ∃ x, buildPairs H (padEven (a :: b :: rest)) = [x] := by
          match hh : buildPairs H (padEven (a :: b :: rest)), h1 with
          | [x], _ => exact ⟨x, rfl⟩
        rw [hx]
        simp [rootOf, rootOfF]
      · have h2 : 2 ≤ (buildPairs H (padEven (a :: b :: rest))).length := by omega
        exact List.mem_append_right _
          (rootOf_mem_future H (buildPairs H (padEven (a :: b :: rest))) h2)
termination_by lvl h => lvl.length
decreasing_by
  simp only [buildPairs_length, padEven_length, List.length_cons]
  omega

/-- On a level of uniform height, the returned root's reported height
adds the ceiling logarithm of the level width. -/
theorem buildRec_height (H : HashFun) :
    ∀ (lvl : List MNode) (m : NodeMap) (r : MNode) (mF : NodeMap) (hgt : Nat),
      buildRec H lvl m = some (r, mF) →
      (∀ n ∈ lvl, n.calcHeight = hgt) →
      r.calcHeight = hgt + Nat.clog 2 lvl.length
  | [], _, _, _, _, hbr, _ => by simp [buildRec, buildRecF] at hbr
  | [n], m, r, mF, hgt, hbr, hh => by
      simp only [buildRec, buildRecF, List.length_cons, Option.some.injEq,
        Prod.mk.injEq, List.length_nil] at hbr
      rw [← hbr.1]
      simp only [List.length_cons, List.length_nil, Nat.zero_add,
        Nat.clog_one_right, Nat.add_zero]
      exact hh n (by simp)
  | a :: b :: rest, m, r, mF, hgt, hbr, hh => by
      have hlen : 2 ≤ (a :: b :: rest).length := by simp
      have hnext := nextLevel_length H (a :: b :: rest) hlen
      rw [buildRec_cons H _ _ hlen] at hbr
      have hnexth : ∀ p ∈ buildPairs H (padEven (a :: b :: rest)),
          p.calcHeight = hgt + 1 := by
        intro p hp
        obtain ⟨x, y, rfl, hx, hy⟩ := buildPairs_children H _ p hp
        simp [MNode.calcHeight, hh x (mem_padEven hx), hh y (mem_padEven hy)]
        omega
      have hrec := buildRec_height H _ _ r _ (hgt + 1) hbr hnexth
      have heq : (buildPairs H (padEven (a :: b :: rest))).length
          = ((a :: b :: rest).length + 1) / 2 := by
        simp only [List.length_cons] at hnext ⊢
        omega
      have hclog := Nat.clog_of_two_le (show 1 < 2 by decide) hlen
      rw [show (a :: b :: rest).length + 2 - 1 = (a :: b :: rest).length + 1 from by
        omega] at hclog
      rw [hrec, heq, hclog]
      omega
termination_by lvl m r mF hgt hbr hh => lvl.length
decreasing_by
  simp only [buildPairs_length, padEven_length, List.length_cons]
  omega

/-- The state of a tree successfully built from keys with pairwise
distinct created hashes. -/
theorem buildTree_spec (H : HashFun) (keys : List String) (t : MerkleTree)
    (hnd : (createdHashes H keys).Nodup)
    (ht : MerkleTree.buildTree H keys = some t) :
    ∃ l ls, mkLeaves H keys 0 = l :: ls
      ∧ t.root = some (rootOf H (l :: ls))
      ∧ t.nodes = nodeEntries ((l :: ls) ++ futureNodes H (l :: ls))
      ∧ t.leaves = (if ls = [] then [l] else padEven (l :: ls)) := by
  unfold MerkleTree.buildTree at ht
  cases hml : mkLeaves H keys 0 with
  | nil =>
      rw [hml] at ht
      exact absurd ht (by simp)
  | cons l ls =>
      simp only [hml] at ht
      have hcreated : createdHashes H keys
          = ((l :: ls) ++ futureNodes H (l :: ls)).map MNode.hash := by
        unfold createdHashes createdNodes
        rw [hml]
      rw [hcreated] at hnd
      have hndl : (([] : NodeMap).map Prod.fst ++ (l :: ls).map MNode.hash).Nodup := by
        rw [List.map_append] at hnd
        simpa using (List.nodup_append.mp hnd).1
      have hins : insertAll [] (l :: ls) = nodeEntries (l :: ls) := by
        rw [insertAll_fresh _ _ hndl]
        simp
      have hnd2 : (((nodeEntries (l :: ls)).map Prod.fst)
          ++ (futureNodes H (l :: ls)).map MNode.hash).Nodup := by
        rw [nodeEntries_keys]
        simpa [List.map_append] using hnd
      rw [hins, buildRec_eq_future H (l :: ls) (nodeEntries (l :: ls)) (by simp) hnd2] at ht
      simp only [Option.some.injEq] at ht
      refine ⟨l, ls, rfl, ?_, ?_, ?_⟩ <;> rw [← ht]
      · rw [nodeEntries_append]

/-! ## Locating a node's pair in a padded level -/

/-- In an even-length level in which the node occurs exactly once, or
occurs exactly as the duplicated final pad pair, `pairStep` finds its
pair, `buildPairs` contains the corresponding parent, and the scan of
the created parents finds exactly that parent first.  The returned
sibling hash and side flag are those the upward walk records. -/
theorem pairStep_spec (H : HashFun) :
    ∀ (xs : List MNode) (n : MNode),
      n ∈ xs → xs.length % 2 = 0 →
      (List.count n xs = 1 ∨ (∃ ys, xs = ys ++ [n, n] ∧ n ∉ ys)) →
      ∃ a b p, p = MNode.inner (combineHashes H a.hash b.hash) a b
        ∧ p ∈ buildPairs H xs
        ∧ (buildPairs H xs).find? (fun x => isParentOf x n) = some p
        ∧ ((n = a ∧ pairStep H xs n = some (b.hash, false, p))
           ∨ (n ≠ a ∧ n = b ∧ pairStep H xs n = some (a.hash, true, p)))
  | [], n, hn, _, _ => absurd hn (by simp)
  | [x], _, _, hev, _ => by simp at hev
  | a :: b :: rest, n, hn, hev, hcond => by
      by_cases hna : n = a
      · refine ⟨a, b, MNode.inner (combineHashes H a.hash b.hash) a b, rfl, ?_, ?_, ?_⟩
        · rw [buildPairs]
          exact List.mem_cons_self _ _
        · rw [buildPairs]
          refine List.find?_cons_of_pos _ ?_
          simp [isParentOf, MNode.leftChild, MNode.isLeaf, hna]
        · left
          refine ⟨hna, ?_⟩
          rw [pairStep, if_pos hna]
      · by_cases hnb : n = b
        · refine ⟨a, b, MNode.inner (combineHashes H a.hash b.hash) a b, rfl, ?_, ?_, ?_⟩
          · rw [buildPairs]
            exact List.mem_cons_self _ _
          · rw [buildPairs]
            refine List.find?_cons_of_pos _ ?_
            simp [isParentOf, MNode.leftChild, MNode.rightChild, MNode.isLeaf, hna, hnb]
          · right
            refine ⟨hna, hnb, ?_⟩
            rw [pairStep, if_neg hna, if_pos hnb]
        · have hnrest : n ∈ rest := by
            rcases List.mem_cons.mp hn with h | h
            · exact absurd h hna
            rcases List.mem_cons.mp h with h | h
            · exact absurd h hnb
            · exact h
          have hevrest : rest.length % 2 = 0 := by
            simp only [List.length_cons] at hev
            omega
          have hcondrest : List.count n rest = 1
              ∨ (∃ ys, rest = ys ++ [n, n] ∧ n ∉ ys) := by
            rcases hcond with hc | ⟨ys, hys, hnys⟩
            · left
              rw [List.count_cons, List.count_cons] at hc
              simp only [beq_iff_eq] at hc
              have h1 : (if a = n then 1 else 0) = 0 := by
                rw [if_neg (fun h => hna h.symm)]
              have h2 : (if b = n then 1 else 0) = 0 := by
                rw [if_neg (fun h => hnb h.symm)]
              rw [h1, h2] at hc
              omega
            · right
              cases ys with
              | nil =>
                  simp at hys
                  exact absurd hys.1.symm hna
              | cons y ys₂ =>
                  cases ys₂ with
                  | nil =>
                      simp at hys
                      exact absurd hys.2.1.symm hnb
                  | cons y₂ ys₃ =>
                      simp only [List.cons_append, List.cons.injEq] at hys
                      refine ⟨ys₃, hys.2.2, fun hm => hnys ?_⟩
                      simp [hm]
          obtain ⟨pa, pb, p, hp, hpmem, hpfind, hpcase⟩ :=
            pairStep_spec H rest n hnrest hevrest hcondrest
          refine ⟨pa, pb, p, hp, ?_, ?_, ?_⟩
          · rw [buildPairs]
            exact List.mem_cons_of_mem _ hpmem
          · rw [buildPairs]
            have hf : isParentOf (MNode.inner (combineHashes H a.hash b.hash) a b) n
                = false :=
              isParentOf_false_of _ n
                (fun h => hna (Option.some.inj h).symm)
                (fun h => hnb (Option.some.inj h).symm)
            rw [List.find?_cons_of_neg _ (by simp [hf]), hpfind]
          · rw [pairStep, if_neg hna, if_neg hnb]
            exact hpcase

/-- A node of a duplicate-free level occurs in the padded level either
exactly once or exactly as the duplicated final pad pair. -/
theorem padEven_count (lvl : List MNode) (n : MNode) (hnd : lvl.Nodup)
    (hn : n ∈ lvl) :
    List.count n (padEven lvl) = 1
    ∨ (∃ ys, padEven lvl = ys ++ [n, n] ∧ n ∉ ys) := by
  have hne : lvl ≠ [] := by
    rintro rfl
    simp at hn
  unfold padEven
  split
  · rw [List.getLastD_eq_getLast?, List.getLast?_eq_getLast_of_ne_nil hne]
    simp only [Option.getD_some]
    by_cases hlast : n = lvl.getLast hne
    · right
      subst hlast
      have hsplit := List.dropLast_append_getLast hne
      set g := lvl.getLast hne with hg
      set d := lvl.dropLast with hd
      have hnodup2 : (d ++ [g]).Nodup := by
        rwa [hsplit]
      refine ⟨d, ?_, ?_⟩
      · rw [← hsplit]
        simp
      · intro hmem
        exact (List.disjoint_of_nodup_append hnodup2) hmem (by simp)
    · left
      rw [List.count_append]
      have h1 : List.count n lvl = 1 := List.count_eq_one_of_mem hnd hn
      have h2 : List.count n [lvl.getLast hne] = 0 := by
        simp only [List.count_cons, List.count_nil, beq_iff_eq]
        rw [if_neg (fun h => hlast h.symm)]
      omega
  · left
    exact List.count_eq_one_of_mem hnd hn

/-! ## Correctness of the upward walk on a built tree -/

/-- The upward walk of `generateMembershipProof`, run over the final
node map of a build whose created hashes are globally fresh, records
exactly the sibling/side sequence `walkSides` (with consecutive level
numbers appended to the accumulator) and the verification fold of that
sequence equals the root hash.  `prior` lists every node created up to
and including the given level; the map holds the entries of `prior`
followed by everything created above the level. -/
theorem proofWalk_spec (H : HashFun) :
    ∀ (lvl prior : List MNode),
      lvl ≠ [] →
      ((prior ++ futureNodes H lvl).map MNode.hash).Nodup →
      (∀ q ∈ prior, ∀ c : MNode,
          q.leftChild = some c ∨ q.rightChild = some c →
          c ∉ lvl ∧ c ∉ futureNodes H lvl) →
      (lvl.map MNode.hash).Nodup →
      (∀ x ∈ lvl, x ∈ prior) →
      ∀ n ∈ lvl, ∀ fuel : Nat, lvl.length ≤ fuel → ∀ acc : List PathStep,
        proofWalk (nodeEntries (prior ++ futureNodes H lvl))
            (some (rootOf H lvl)) fuel n acc
          = acc ++ mkSteps (walkSides H lvl n) acc.length
        ∧ foldSides H n.hash (walkSides H lvl n) = (rootOf H lvl).hash
  | [], _, hne, _, _, _, _ => absurd rfl hne
  | [x], prior, _, _, _, _, _ => by
      intro n hn fuel hfuel acc
      have hnx : n = x := by simpa using hn
      subst hnx
      obtain ⟨f, rfl⟩ : ∃ f, fuel = f + 1 := ⟨fuel - 1, by
        simp at hfuel
        omega⟩
      have hroot : rootOf H [n] = n := rfl
      have hws : walkSides H [n] n = [] := rfl
      refine ⟨?_, ?_⟩
      · rw [proofWalk, if_pos (by rw [hroot]), hws]
        simp [mkSteps]
      · rw [hws, hroot]
        rfl
  | a :: b :: rest, prior, _, hnd, hchild, hlvlnd, hsub => by
      intro n hn fuel hfuel acc
      have hlen2 : 2 ≤ (a :: b :: rest).length := by simp
      have hnext := nextLevel_length H (a :: b :: rest) hlen2
      have hfut := futureNodes_cons H (a :: b :: rest) hlen2
      have hrootc := rootOf_cons H (a :: b :: rest) hlen2
      have hrootmem := rootOf_mem_future H (a :: b :: rest) hlen2
      have hdisj : ∀ c ∈ prior, c ∉ futureNodes H (a :: b :: rest) := by
        intro c hc hcf
        rw [List.map_append] at hnd
        exact (List.disjoint_of_nodup_append hnd)
          (List.mem_map_of_mem _ hc) (List.mem_map_of_mem _ hcf)
      have hnroot : n ≠ rootOf H (a :: b :: rest) := by
        intro heq
        exact hdisj n (hsub n hn) (heq ▸ hrootmem)
      have hlvlnodup : (a :: b :: rest).Nodup := List.Nodup.of_map _ hlvlnd
      obtain ⟨pa, pb, p, hp, hpmem, hpfind, hpcase⟩ :=
        pairStep_spec H (padEven (a :: b :: rest)) n (mem_padEven_of_mem hn)
          (padEven_even _) (padEven_count _ n hlvlnodup hn)
      have hnonePrior : (nodeEntries prior).find? (fun x => isParentOf x.2 n)
          = none := by
        rw [List.find?_eq_none]
        intro e he
        obtain ⟨q, hq, rfl⟩ := List.mem_map.mp he
        have hl : q.leftChild ≠ some n := fun hc => (hchild q hq n (Or.inl hc)).1 hn
        have hr : q.rightChild ≠ some n := fun hc => (hchild q hq n (Or.inr hc)).1 hn
        simp [isParentOf_false_of q n hl hr]
      have hmapeq : nodeEntries (prior ++ futureNodes H (a :: b :: rest))
          = nodeEntries ((prior ++ buildPairs H (padEven (a :: b :: rest)))
              ++ futureNodes H (buildPairs H (padEven (a :: b :: rest)))) := by
        rw [hfut, List.append_assoc]
      have hfp : findParent (nodeEntries (prior ++ futureNodes H (a :: b :: rest))) n
          = some p := by
        rw [hfut, nodeEntries_append, nodeEntries_append]
        unfold findParent
        rw [List.find?_append, hnonePrior, List.find?_append,
          find?_nodeEntries, hpfind]
        rfl
      have hnextne : buildPairs H (padEven (a :: b :: rest)) ≠ [] := by
        intro h0
        rw [h0] at hnext
        simp at hnext
      have hndnext : (((prior ++ buildPairs H (padEven (a :: b :: rest)))
            ++ futureNodes H (buildPairs H (padEven (a :: b :: rest)))).map
              MNode.hash).Nodup := by
        rw [List.append_assoc, ← hfut]
        exact hnd
      have hchildnext : ∀ q ∈ prior ++ buildPairs H (padEven (a :: b :: rest)),
          ∀ c : MNode, q.leftChild = some c ∨ q.rightChild = some c →
          c ∉ buildPairs H (padEven (a :: b :: rest))
            ∧ c ∉ futureNodes H (buildPairs H (padEven (a :: b :: rest))) := by
        intro q hq c hc
        rcases List.mem_append.mp hq with hq | hq
        · have h2 := hchild q hq c hc
          rw [hfut] at h2
          exact ⟨fun hm => h2.2 (List.mem_append_left _ hm),
                 fun hm => h2.2 (List.mem_append_right _ hm)⟩
        · obtain ⟨x, y, rfl, hx, hy⟩ := buildPairs_children H _ q hq
          have hcxy : c = x ∨ c = y := by
            rcases hc with hc | hc
            · exact Or.inl (Option.some.inj hc).symm
            · exact Or.inr (Option.some.inj hc).symm
          have hcl : c ∈ (a :: b :: rest) := by
            rcases hcxy with rfl | rfl
            · exact mem_padEven hx
            · exact mem_padEven hy
          have hcfut := hdisj c (hsub c hcl)
          rw [hfut] at hcfut
          exact ⟨fun hm => hcfut (List.mem_append_left _ hm),
                 fun hm => hcfut (List.mem_append_right _ hm)⟩
      have hndlvlnext : ((buildPairs H (padEven (a :: b :: rest))).map
          MNode.hash).Nodup := by
        have h1 := hndnext
        rw [List.map_append, List.map_append] at h1
        exact (List.nodup_append.mp (List.nodup_append.mp h1).1).2.1
      have hsubnext : ∀ x ∈ buildPairs H (padEven (a :: b :: rest)),
          x ∈ prior ++ buildPairs H (padEven (a :: b :: rest)) :=
        fun x hx => List.mem_append_right _ hx
      obtain ⟨f, rfl⟩ : ∃ f, fuel = f + 1 := ⟨fuel - 1, by
        simp only [List.length_cons] at hfuel
        omega⟩
      have hfuelnext : (buildPairs H (padEven (a :: b :: rest))).length ≤ f := by
        simp only [List.length_cons] at hfuel hnext ⊢
        omega
      have IH := proofWalk_spec H (buildPairs H (padEven (a :: b :: rest)))
        (prior ++ buildPairs H (padEven (a :: b :: rest)))
        hnextne hndnext hchildnext hndlvlnext hsubnext p hpmem f hfuelnext
      rcases hpcase with ⟨hna, hps⟩ | ⟨hna, hnb, hps⟩
      · have hbeq : (pa == n) = true := by
          rw [hna]
          exact beq_self_eq_true pa
        have hws : walkSides H (a :: b :: rest) n
            = (pb.hash, false)
              :: walkSides H (buildPairs H (padEven (a :: b :: rest))) p := by
          rw [walkSides_cons H _ n hlen2, hps]
        refine ⟨?_, ?_⟩
        · rw [proofWalk, if_neg (by simp [hnroot]), hfp, hp]
          simp only [hbeq, if_pos, Bool.not_true]
          rw [← hp, hmapeq, hrootc, hws]
          refine ((IH (acc ++ [⟨pb.hash, false, acc.length⟩])).1).trans ?_
          simp [mkSteps, List.append_assoc]
        · rw [hws]
          have hfold1 : foldSides H n.hash
              ((pb.hash, false)
                :: walkSides H (buildPairs H (padEven (a :: b :: rest))) p)
              = foldSides H p.hash
                  (walkSides H (buildPairs H (padEven (a :: b :: rest))) p) := by
            rw [hp, hna]
            rfl
          rw [hfold1, (IH acc).2, hrootc]
      · have hbeq : (pa == n) = false :=
          beq_eq_false_iff_ne.mpr (fun h => hna h.symm)
        have hws : walkSides H (a :: b :: rest) n
            = (pa.hash, true)
              :: walkSides H (buildPairs H (padEven (a :: b :: rest))) p := by
          rw [walkSides_cons H _ n hlen2, hps]
        refine ⟨?_, ?_⟩
        · rw [proofWalk, if_neg (by simp [hnroot]), hfp, hp]
          simp only [hbeq, if_neg, Bool.not_false, Bool.false_eq_true]
          rw [← hp, hmapeq, hrootc, hws]
          refine ((IH (acc ++ [⟨pa.hash, true, acc.length⟩])).1).trans ?_
          simp [mkSteps, List.append_assoc]
        · rw [hws]
          have hfold1 : foldSides H n.hash
              ((pa.hash, true)
                :: walkSides H (buildPairs H (padEven (a :: b :: rest))) p)
              = foldSides H p.hash
                  (walkSides H (buildPairs H (padEven (a :: b :: rest))) p) := by
            rw [hp, hnb]
            rfl
          rw [hfold1, (IH acc).2, hrootc]
termination_by lvl => lvl.length
decreasing_by
  simp only [buildPairs_length, padEven_length, List.length_cons]
  omega

/-- The walk and fold at the leaf level of a successful build whose
created hashes are pairwise distinct. -/
theorem walk_at_leaves (H : HashFun) (keys : List String) (t : MerkleTree)
    (hnd : (createdHashes H keys).Nodup)
    (ht : MerkleTree.buildTree H keys = some t)
    (leaf : MNode) (hleaf : leaf ∈ mkLeaves H keys 0) :
    proofWalk t.nodes t.root (t.nodes.length + 1) leaf []
      = mkSteps (walkSides H (mkLeaves H keys 0) leaf) 0
    ∧ foldSides H leaf.hash (walkSides H (mkLeaves H keys 0) leaf)
      = (rootOf H (mkLeaves H keys 0)).hash := by
  obtain ⟨l, ls, hml, hroot, hnodes, hleaves⟩ := buildTree_spec H keys t hnd ht
  rw [← hml] at hroot hnodes
  have hnd' : ((mkLeaves H keys 0 ++ futureNodes H (mkLeaves H keys 0)).map
      MNode.hash).Nodup := hnd
  have hne : mkLeaves H keys 0 ≠ [] := by
    rw [hml]
    simp
  have hchild : ∀ q ∈ mkLeaves H keys 0, ∀ c : MNode,
      q.leftChild = some c ∨ q.rightChild = some c →
      c ∉ mkLeaves H keys 0 ∧ c ∉ futureNodes H (mkLeaves H keys 0) := by
    intro q hq c hc
    have hnc := mkLeaves_no_children H keys 0 q hq
    rcases hc with hc | hc
    · rw [hnc.1] at hc
      exact absurd hc (by simp)
    · rw [hnc.2] at hc
      exact absurd hc (by simp)
  have hndlvl : ((mkLeaves H keys 0).map MNode.hash).Nodup := by
    rw [List.map_append] at hnd'
    exact (List.nodup_append.mp hnd').1
  have hfuel : (mkLeaves H keys 0).length ≤ t.nodes.length + 1 := by
    rw [hnodes]
    simp [nodeEntries]
    omega
  have hspec := proofWalk_spec H (mkLeaves H keys 0) (mkLeaves H keys 0)
    hne hnd' hchild hndlvl (fun x hx => hx) leaf hleaf
    (t.nodes.length + 1) hfuel []
  rw [hnodes] at hspec
  rw [hnodes, hroot]
  exact ⟨by simpa using hspec.1, hspec.2⟩

/-- Distinct accumulators propagate through the verification fold when
the hash primitive is injective. -/
theorem foldPath_ne (H : HashFun) (hinj : Function.Injective H) :
    ∀ (path : List PathStep) (x y : String), x ≠ y →
      foldPath H x path ≠ foldPath H y path
  | [], x, y, hxy => by simpa [foldPath] using hxy
  | s :: rest, x, y, hxy => by
      have hstep :
          (if s.isLeft then combineHashes H s.hash x else combineHashes H x s.hash)
          ≠ (if s.isLeft then combineHashes H s.hash y else combineHashes H y s.hash) := by
        by_cases hside : s.isLeft = true
        · simp only [hside, if_true, combineHashes]
          intro heq
          exact hxy (string_append_left_cancel (hinj heq))
        · simp only [hside, if_false, combineHashes, Bool.false_eq_true]
          intro heq
          exact hxy (string_append_right_cancel (hinj heq))
      simp only [foldPath, List.foldl_cons]
      exact foldPath_ne H hinj rest _ _ hstep

/-- Replacing the sibling hash of any one step changes the fold result
when the hash primitive is injective. -/
theorem foldPath_set_ne (H : HashFun) (hinj : Function.Injective H) :
    ∀ (path : List PathStep) (j : Nat) (hj : j < path.length) (x t' : String),
      t' ≠ (path.get ⟨j, hj⟩).hash →
      foldPath H x (path.set j
          { hash := t', isLeft := (path.get ⟨j, hj⟩).isLeft
            level := (path.get ⟨j, hj⟩).level })
        ≠ foldPath H x path
  | [], j, hj, _, _, _ => absurd hj (by simp)
  | s :: rest, 0, _, x, t', hne => by
      simp only [List.get] at hne
      simp only [List.set, List.get, foldPath, List.foldl_cons]
      apply foldPath_ne H hinj rest
      by_cases hside : s.isLeft = true
      · simp only [hside, if_true]
        simp only [combineHashes]
        intro heq
        exact hne (string_append_right_cancel (hinj heq))
      · simp only [hside, if_false, Bool.false_eq_true]
        simp only [combineHashes]
        intro heq
        exact hne (string_append_left_cancel (hinj heq))
  | s :: rest, j + 1, hj, x, t', hne => by
      simp only [List.set, foldPath, List.foldl_cons]
      exact foldPath_set_ne H hinj rest j (by simpa using hj) _ t' (by simpa using hne)

/-! ## Claim theorems -/

/-- C10: for every hash string h, a proof with an empty path, leaf hash
h and root hash h verifies successfully, whatever the leaf index and
with no tree in sight: the fold over an empty path is the leaf hash
itself and verification only compares it with the claimed root hash. -/
theorem claim_C10_empty_path_accepted (H : HashFun) (h : String) (idx idx' : Nat) :
    MerkleTree.verifyMembershipProof H
      { leafHash := h, leafIndex := idx, path := [], rootHash := some h } = true
    ∧ MerkleTree.verifyMembershipProof H
        { leafHash := h, leafIndex := idx, path := [], rootHash := some h }
      = MerkleTree.verifyMembershipProof H
          { leafHash := h, leafIndex := idx', path := [], rootHash := some h } := by
  constructor
  · simp [MerkleTree.verifyMembershipProof, foldPath]
  · rfl

/-- C7: the freshness check passes exactly when the proof age
`now - timestamp` does not exceed the five-minute window (300000 ms);
at the boundary, age 300001 fails and age 299999 passes; and in an
initialized system the fourth, last verification step reports exactly
this check on the bundle's timestamp. -/
theorem claim_C7_freshness_window (now ts : Int) :
    (verifyTimestamp ts now = true ↔ now - ts ≤ 5 * 60 * 1000)
    ∧ verifyTimestamp (now - 5 * 60 * 1000 - 1) now = false
    ∧ verifyTimestamp (now - 5 * 60 * 1000 + 1) now = true
    ∧ (∀ (H : HashFun) (sys : ZKProofSystem) (tree : MerkleTree) (proof : ZKProof),
        sys.merkleTree = some tree →
        ∃ rep, verifyZKProof H sys (some proof) now = .ok rep ∧
          (rep.verificationSteps.map (fun s => s.result)).getLast? =
            some (verifyTimestamp proof.timestamp now)) := by
  refine ⟨?_, ?_, ?_, ?_⟩
  · simp [verifyTimestamp]
  · simp [verifyTimestamp]
    omega
  · simp [verifyTimestamp]
    omega
  · intro H sys tree proof ht
    refine ⟨_, rfl, ?_⟩
    simp [verifyStepsRun, ht]

/-- C7 witness: the boundary facts and the pipeline link evaluated in a
concrete initialized system at time 0. -/
theorem claim_C7_witness :
    (verifyTimestamp ((0 : Int) - 5 * 60 * 1000 - 1) 0 = false)
    ∧ (verifyTimestamp ((0 : Int) - 5 * 60 * 1000 + 1) 0 = true)
    ∧ wSys.merkleTree = some wTree
    ∧ (∃ rep, verifyZKProof Hc wSys (some wBundle) 0 = .ok rep ∧
        (rep.verificationSteps.map (fun s => s.result)).getLast? =
          some (verifyTimestamp wBundle.timestamp 0)) :=
  ⟨(claim_C7_freshness_window 0 0).2.1,
   (claim_C7_freshness_window 0 0).2.2.1,
   rfl,
   (claim_C7_freshness_window 0 wBundle.timestamp).2.2.2 Hc wSys wTree wBundle rfl⟩

/-- C4 counterexample: in a never-initialized system, `verifyZKProof`
on a non-null bundle does not raise any error (in particular no
StateError): the null-tree fault inside the try block is caught and
converted into a single failed synthetic step, and a structured report
is returned.  (`generateZKProof` does raise the StateError.) -/
theorem claim_C4_counterexample :
    verifyZKProof Hc ZKProofSystem.init (some wBundle) 0 =
      .ok { isValid := false
            verificationSteps :=
              [{ step := "验证过程", result := false
                 details := "验证过程出错: Cannot read properties of null" }]
            summary := { totalSteps := 1, passedSteps := 0
                         finalResult := "证明无效" } }
    ∧ generateZKProof Hc "cc" ZKProofSystem.init 0 0 = .error .stateError := by
  constructor
  · rfl
  · rfl

/-- C4 amended: before any successful initialization,
`generateZKProof` raises the StateError, but `verifyZKProof` on a
non-null bundle does not raise: the internal null-tree fault is caught
and reported as one failed "verification process" step in an invalid
report. -/
theorem claim_C4_amended (H : HashFun) (sys : ZKProofSystem)
    (hsys : sys.merkleTree = none) (randomness : String) (userIndex : Nat)
    (bundle : ZKProof) (now : Int) :
    generateZKProof H randomness sys userIndex now = .error .stateError
    ∧ verifyZKProof H sys (some bundle) now =
        .ok { isValid := false
              verificationSteps :=
                [{ step := "验证过程", result := false
                   details := "验证过程出错: Cannot read properties of null" }]
              summary := { totalSteps := 1, passedSteps := 0
                           finalResult := "证明无效" } } := by
  constructor
  · simp [generateZKProof, hsys]
  · simp [verifyZKProof, verifyStepsRun, hsys]

/-- C4 amended, witness: evaluated on the fresh system and a concrete
bundle. -/
theorem claim_C4_amended_witness :
    ZKProofSystem.init.merkleTree = none
    ∧ generateZKProof Hc "cc" ZKProofSystem.init 3 7 = .error .stateError
    ∧ verifyZKProof Hc ZKProofSystem.init (some wBundle) 7 =
        .ok { isValid := false
              verificationSteps :=
                [{ step := "验证过程", result := false
                   details := "验证过程出错: Cannot read properties of null" }]
              summary := { totalSteps := 1, passedSteps := 0
                           finalResult := "证明无效" } } :=
  ⟨rfl, (claim_C4_amended Hc ZKProofSystem.init rfl "cc" 3 wBundle 7).1,
   (claim_C4_amended Hc ZKProofSystem.init rfl "cc" 3 wBundle 7).2⟩

/-- C3 (code bug evaluation): building from the three distinct keys
["a","b","c"] stores FOUR leaves, and getTreeStats reports
leafNodes = 4, not 3: the odd-level padding of the first level appends
the duplicated last leaf to the stored leaf array through aliasing.
The first three stored leaves are still the created leaves in order. -/
theorem claim_C3_bug_evaluation :
    MerkleTree.buildTree Hc ["a", "b", "c"] = some w3Tree
    ∧ w3Tree.leaves.length = 4
    ∧ w3Tree.getTreeStats.leafNodes = 4
    ∧ (["a", "b", "c"] : List String).length = 3
    ∧ w3Tree.leaves =
        [MNode.leaf (Hc "a") "a" 0, MNode.leaf (Hc "b") "b" 1,
         MNode.leaf (Hc "c") "c" 2, MNode.leaf (Hc "c") "c" 2] := by
  refine ⟨rfl, rfl, rfl, rfl, rfl⟩

/-- C9: `initializeSystem` fails exactly when the requested identity
count is below 2 or above 32, the failure is the RangeError, and on
failure the whole Registry state is returned unchanged (the guard runs
before any mutation). -/
theorem claim_C9_init_range (H : HashFun) (genKey : Nat → String)
    (sys : ZKProofSystem) (userCount : Int) :
    (exceptOk (initSystem H genKey sys userCount).1 = false ↔
      (userCount < 2 ∨ userCount > 32))
    ∧ ((userCount < 2 ∨ userCount > 32) →
        initSystem H genKey sys userCount = (.error .rangeError, sys)) := by
  by_cases hrange : userCount < 2 ∨ userCount > 32
  · refine ⟨?_, fun _ => ?_⟩
    · simp [initSystem, hrange, exceptOk]
    · simp [initSystem, hrange]
  · have hkeys : ((List.range userCount.toNat).map genKey) ≠ [] := by
      have : 2 ≤ userCount := by omega
      have h2 : 2 ≤ userCount.toNat := by omega
      simp [List.map_eq_nil_iff, List.range_eq_nil]
      omega
    have hbt := buildTree_isSome H ((List.range userCount.toNat).map genKey) hkeys
    rw [Option.isSome_iff_exists] at hbt
    obtain ⟨t, ht⟩ := hbt
    refine ⟨?_, fun hc => absurd hc hrange⟩
    simp [initSystem, hrange, ht, exceptOk]

/-- C9 witness: a concrete out-of-range call fails with the RangeError
and leaves the state untouched, and a concrete in-range call succeeds. -/
theorem claim_C9_witness :
    initSystem Hc (fun n => toString n) ZKProofSystem.init 40 =
      (.error .rangeError, ZKProofSystem.init)
    ∧ (exceptOk (initSystem Hc (fun n => toString n) ZKProofSystem.init 2).1 = true) :=
  ⟨(claim_C9_init_range Hc (fun n => toString n) ZKProofSystem.init 40).2 (by decide),
   by
    have h := (claim_C9_init_range Hc (fun n => toString n) ZKProofSystem.init 2).1
    cases hv : exceptOk (initSystem Hc (fun n => toString n) ZKProofSystem.init 2).1 with
    | true => rfl
    | false => exact absurd (h.mp hv) (by decide)⟩

/-- C1 counterexample: for the concrete key list ["a","a","a"] (with
the concrete deterministic hash `Hc`), building succeeds and the key
"a" occurs in the list, yet verifying the generated membership proof
returns false: the three equal leaf hashes make the two equal-hash
level-one parents collide in the hash-keyed node map, the first
parent is evicted, the upward walk finds no parent and stops with an
empty path, and the folded hash (the leaf hash) differs from the
root. -/
theorem claim_C1_counterexample :
    ("a" ∈ ["a", "a", "a"])
    ∧ ((MerkleTree.buildTree Hc ["a", "a", "a"]).bind
        (fun t => t.generateMembershipProof Hc "a")).map
          (MerkleTree.verifyMembershipProof Hc) = some false :=
  ⟨by simp, by rfl⟩

/-- C1 amended: for every non-empty ordered list of public keys and
every key k occurring in that list, provided no two distinct nodes
created by the build share a hash, verifying the proof generated for k
returns true (hash primitive modelled as the fixed deterministic
function H). -/
theorem claim_C1_roundtrip (H : HashFun) (keys : List String) (k : String)
    (hk : k ∈ keys) (hnd : (createdHashes H keys).Nodup)
    (t : MerkleTree) (ht : MerkleTree.buildTree H keys = some t) :
    ∃ p, t.generateMembershipProof H k = some p
      ∧ MerkleTree.verifyMembershipProof H p = true := by
  obtain ⟨l, ls, hml, hroot, hnodes, hleaves⟩ := buildTree_spec H keys t hnd ht
  obtain ⟨j, hjmem⟩ := mkLeaves_exists_key H keys 0 k hk
  have hmemT : MNode.leaf (H k) k j ∈ t.leaves := by
    rw [hleaves]
    split
    · next hls =>
        subst hls
        rw [hml] at hjmem
        simpa using hjmem
    · rw [← hml]
      exact mem_padEven_of_mem hjmem
  have hfsome : (t.leaves.find? (fun l => l.hash == generateUserId H k)).isSome := by
    rw [List.find?_isSome]
    exact ⟨MNode.leaf (H k) k j, hmemT, by simp [MNode.hash, generateUserId]⟩
  obtain ⟨x, hfd⟩ := Option.isSome_iff_exists.mp hfsome
  have hxmemT : x ∈ t.leaves := List.mem_of_find?_eq_some hfd
  have hxh : x.hash = H k := by
    have := List.find?_some hfd
    simpa [generateUserId] using this
  have hxmk : x ∈ mkLeaves H keys 0 := by
    rw [hleaves] at hxmemT
    rw [hml]
    split at hxmemT
    · next hls =>
        subst hls
        simpa using hxmemT
    · exact mem_padEven hxmemT
  have hwalk := walk_at_leaves H keys t hnd ht x hxmk
  have hgen : t.generateMembershipProof H k = some
      { leafHash := generateUserId H k
        leafIndex := x.index
        path := proofWalk t.nodes t.root (t.nodes.length + 1) x []
        rootHash := t.getRootHash } := by
    unfold MerkleTree.generateMembershipProof
    simp only [hfd]
  refine ⟨_, hgen, ?_⟩
  unfold MerkleTree.verifyMembershipProof
  simp only [hwalk.1, foldPath_mkSteps]
  rw [show generateUserId H k = x.hash from hxh.symm, hwalk.2]
  unfold MerkleTree.getRootHash
  rw [hroot, ← hml]
  simp

/-- C1 amended, witness: the round trip evaluated on the concrete
three-key build with distinct keys under the concrete hash. -/
theorem claim_C1_roundtrip_witness :
    ("b" ∈ ["a", "b", "c"])
    ∧ (createdHashes Hc ["a", "b", "c"]).Nodup
    ∧ MerkleTree.buildTree Hc ["a", "b", "c"] = some w3Tree
    ∧ ∃ p, w3Tree.generateMembershipProof Hc "b" = some p
        ∧ MerkleTree.verifyMembershipProof Hc p = true :=
  ⟨by simp, by decide, rfl,
   claim_C1_roundtrip Hc ["a", "b", "c"] "b" (by simp) (by decide) w3Tree rfl⟩

/-- C8: the tree statistics report height ceil(log2 n) + 1 for a tree
built from n keys; in particular 1 when n = 1 and k + 1 when n = 2^k.
Height is computed as 1 on a leaf and 1 + max of the child heights on
internal nodes, from the root. -/
theorem claim_C8_height (H : HashFun) (keys : List String) (t : MerkleTree)
    (ht : MerkleTree.buildTree H keys = some t) :
    t.getTreeStats.treeHeight = Nat.clog 2 keys.length + 1
    ∧ (keys.length = 1 → t.getTreeStats.treeHeight = 1)
    ∧ (∀ k : Nat, keys.length = 2 ^ k → t.getTreeStats.treeHeight = k + 1) := by
  have hmain : t.getTreeStats.treeHeight = Nat.clog 2 keys.length + 1 := by
    unfold MerkleTree.buildTree at ht
    cases hml : mkLeaves H keys 0 with
    | nil =>
        rw [hml] at ht
        exact absurd ht (by simp)
    | cons l ls =>
        simp only [hml] at ht
        cases hbr : buildRec H (l :: ls) (insertAll [] (l :: ls)) with
        | none =>
            rw [hbr] at ht
            simp at ht
        | some rm =>
            obtain ⟨r, m⟩ := rm
            rw [hbr] at ht
            simp only [Option.some.injEq] at ht
            have hh : ∀ n ∈ (l :: ls), n.calcHeight = 1 := by
              intro n hn
              exact mkLeaves_calcHeight H keys 0 n (hml ▸ hn)
            have hr := buildRec_height H (l :: ls) _ r m 1 hbr hh
            have hstats : t.getTreeStats.treeHeight = r.calcHeight := by
              rw [← ht]
              rfl
            have hlen : (l :: ls).length = keys.length := by
              rw [← hml]
              exact mkLeaves_length H keys 0
            rw [hstats, hr, hlen]
            omega
  refine ⟨hmain, ?_, ?_⟩
  · intro h1
    rw [hmain, h1, Nat.clog_one_right]
  · intro k hk
    rw [hmain, hk, Nat.clog_pow 2 k (by decide)]

/-- C8 witness: heights evaluated on concrete builds with n = 1, 3 and
n = 4 = 2 squared. -/
theorem claim_C8_height_witness :
    MerkleTree.buildTree Hc ["a", "b", "c"] = some w3Tree
    ∧ w3Tree.getTreeStats.treeHeight = Nat.clog 2 3 + 1
    ∧ w3Tree.getTreeStats.treeHeight = 3
    ∧ (∃ t1, MerkleTree.buildTree Hc ["a"] = some t1
        ∧ t1.getTreeStats.treeHeight = 1)
    ∧ (∃ t4, MerkleTree.buildTree Hc ["a", "b", "c", "d"] = some t4
        ∧ t4.getTreeStats.treeHeight = 2 + 1) :=
  ⟨rfl,
   (claim_C8_height Hc ["a", "b", "c"] w3Tree rfl).1,
   by decide,
   ⟨(MerkleTree.buildTree Hc ["a"]).getD default, rfl,
    (claim_C8_height Hc ["a"] ((MerkleTree.buildTree Hc ["a"]).getD default) rfl).2.1
      (by decide)⟩,
   ⟨(MerkleTree.buildTree Hc ["a", "b", "c", "d"]).getD default, rfl,
    (claim_C8_height Hc ["a", "b", "c", "d"]
        ((MerkleTree.buildTree Hc ["a", "b", "c", "d"]).getD default) rfl).2.2 2
      (by decide)⟩⟩

/-- C6: for every membership proof that verifies, replacing any one
sibling hash of the path by any different string (in particular, a
single-character change) makes verification false, and replacing the
root hash by any different value (in particular any other validly
built root) makes verification false, under injectivity of the hash
primitive. -/
theorem claim_C6_tamper (H : HashFun) (hinj : Function.Injective H)
    (p : MembershipProof) (hv : MerkleTree.verifyMembershipProof H p = true) :
    (∀ (j : Nat) (hj : j < p.path.length) (t' : String),
        t' ≠ (p.path.get ⟨j, hj⟩).hash →
        MerkleTree.verifyMembershipProof H
          { p with path := (p.path.set j
              ⟨t', (p.path.get ⟨j, hj⟩).isLeft, (p.path.get ⟨j, hj⟩).level⟩) } = false)
    ∧ (∀ r' : String, some r' ≠ p.rootHash →
        MerkleTree.verifyMembershipProof H { p with rootHash := some r' } = false) := by
  have hveq : p.rootHash = some (foldPath H p.leafHash p.path) := by
    unfold MerkleTree.verifyMembershipProof at hv
    exact (eq_of_beq hv).symm
  constructor
  · intro j hj t' ht'
    unfold MerkleTree.verifyMembershipProof
    rw [beq_eq_false_iff_ne]
    intro heq
    rw [hveq] at heq
    exact foldPath_set_ne H hinj p.path j hj p.leafHash t' ht'
      (Option.some.inj heq)
  · intro r' hr'
    unfold MerkleTree.verifyMembershipProof
    rw [beq_eq_false_iff_ne]
    intro heq
    rw [hveq] at hr'
    exact hr' heq.symm

/-- C6 witness: tampering evaluated on a concrete valid one-step proof
under the concrete injective hash. -/
theorem claim_C6_witness :
    MerkleTree.verifyMembershipProof Hc pW = true
    ∧ ((0 : Nat) < pW.path.length)
    ∧ ("zz" ≠ (pW.path.get ⟨0, by decide⟩).hash)
    ∧ MerkleTree.verifyMembershipProof Hc
        { pW with path := (pW.path.set 0
            ⟨"zz", (pW.path.get ⟨0, by decide⟩).isLeft,
              (pW.path.get ⟨0, by decide⟩).level⟩) } = false
    ∧ (some "yy" ≠ pW.rootHash)
    ∧ MerkleTree.verifyMembershipProof Hc { pW with rootHash := some "yy" } = false :=
  ⟨by decide, by decide, by decide,
   (claim_C6_tamper Hc Hc_injective pW (by decide)).1 0 (by decide) "zz" (by decide),
   by decide,
   (claim_C6_tamper Hc Hc_injective pW (by decide)).2 "yy" (by decide)⟩

/-- With a tree present, the try block runs the four checks in order,
records all four steps, and accumulates validity as their conjunction. -/
theorem verifyStepsRun_some (H : HashFun) (tree : MerkleTree) (proof : ZKProof)
    (now : Int) :
    verifyStepsRun H (some tree) proof now =
      ([{ step := "默克尔树成员证明验证"
          result := MerkleTree.verifyMembershipProof H proof.membershipProof
          details := if MerkleTree.verifyMembershipProof H proof.membershipProof
                     then "用户确实属于注册用户集合" else "用户不属于注册用户集合" },
        { step := "挑战值验证"
          result := generateChallenge H proof.commitment proof.membershipProof
            == proof.challenge
          details := if generateChallenge H proof.commitment proof.membershipProof
              == proof.challenge then "挑战值正确生成" else "挑战值不匹配" },
        { step := "响应一致性验证"
          result := verifyResponse H proof
          details := if verifyResponse H proof then "响应与承诺和挑战一致"
                     else "响应验证失败" },
        { step := "时间戳验证"
          result := verifyTimestamp proof.timestamp now
          details := if verifyTimestamp proof.timestamp now then "证明在有效时间窗口内"
                     else "证明已过期" }],
       MerkleTree.verifyMembershipProof H proof.membershipProof
         && (generateChallenge H proof.commitment proof.membershipProof
            == proof.challenge)
         && verifyResponse H proof
         && verifyTimestamp proof.timestamp now) := by
  unfold verifyStepsRun
  cases MerkleTree.verifyMembershipProof H proof.membershipProof <;>
    cases generateChallenge H proof.commitment proof.membershipProof == proof.challenge <;>
      cases verifyResponse H proof <;>
        cases verifyTimestamp proof.timestamp now <;> rfl

/-- C5: on any non-null bundle in an initialized system (where no
internal fault can occur), the report lists exactly the four steps in
the fixed order, all four results are recorded regardless of earlier
failures, and overall validity is their conjunction; moreover,
tampering only the bundle's response hash in an otherwise valid fresh
bundle makes step three false with steps one, two (and four) still
reported true, and the overall verdict false. -/
theorem claim_C5_pipeline (H : HashFun) (sys : ZKProofSystem) (tree : MerkleTree)
    (proof : ZKProof) (now : Int) (htree : sys.merkleTree = some tree) :
    (∃ rep, verifyZKProof H sys (some proof) now = .ok rep
      ∧ rep.verificationSteps.map (fun s => s.step)
          = ["默克尔树成员证明验证", "挑战值验证", "响应一致性验证", "时间戳验证"]
      ∧ rep.verificationSteps.map (fun s => s.result)
          = [MerkleTree.verifyMembershipProof H proof.membershipProof,
             generateChallenge H proof.commitment proof.membershipProof
               == proof.challenge,
             verifyResponse H proof,
             verifyTimestamp proof.timestamp now]
      ∧ rep.isValid
          = (MerkleTree.verifyMembershipProof H proof.membershipProof
             && (generateChallenge H proof.commitment proof.membershipProof
                == proof.challenge)
             && verifyResponse H proof
             && verifyTimestamp proof.timestamp now))
    ∧ (∀ t' : String,
        MerkleTree.verifyMembershipProof H proof.membershipProof = true →
        (generateChallenge H proof.commitment proof.membershipProof
          == proof.challenge) = true →
        verifyTimestamp proof.timestamp now = true →
        t' ≠ H (proof.commitment.randomness ++ proof.challenge) →
        ∃ rep, verifyZKProof H sys
            (some { proof with response := { proof.response with hash := t' } }) now
              = .ok rep
          ∧ rep.verificationSteps.map (fun s => s.result) = [true, true, false, true]
          ∧ rep.isValid = false) := by
  constructor
  · refine ⟨_, rfl, ?_, ?_, ?_⟩ <;>
      rw [htree, verifyStepsRun_some] <;> simp
  · intro t' hm hc hf ht'
    have hresp : verifyResponse H
        { proof with response := { proof.response with hash := t' } } = false := by
      unfold verifyResponse
      exact beq_eq_false_iff_ne.mpr (fun h => ht' h.symm)
    refine ⟨_, rfl, ?_, ?_⟩ <;>
      rw [htree, verifyStepsRun_some] <;>
        simp [hm, hc, hf, hresp]

/-- C5 witness: evaluated on a concrete initialized two-user system
and a concrete fresh valid bundle whose response hash is tampered. -/
theorem claim_C5_witness :
    wSys.merkleTree = some wTree
    ∧ MerkleTree.verifyMembershipProof Hc wBundle.membershipProof = true
    ∧ (generateChallenge Hc wBundle.commitment wBundle.membershipProof
        == wBundle.challenge) = true
    ∧ verifyTimestamp wBundle.timestamp 0 = true
    ∧ ("XX" ≠ Hc (wBundle.commitment.randomness ++ wBundle.challenge))
    ∧ (∃ rep, verifyZKProof Hc wSys
          (some { wBundle with response := { wBundle.response with hash := "XX" } }) 0
            = .ok rep
        ∧ rep.verificationSteps.map (fun s => s.result) = [true, true, false, true]
        ∧ rep.isValid = false) :=
  ⟨rfl, by decide, by decide, by decide, by decide,
   (claim_C5_pipeline Hc wSys wTree wBundle 0 rfl).2 "XX"
     (by decide) (by decide) (by decide) (by decide)⟩

/-- C2 counterexample: for concrete distinct keys, the stored leaf
sequence after building from three keys is not the three created
leaves: the aliasing of the first level appends the duplicated last
leaf, so the claim's "yields leaves [L0, L1, L2]" fails as stated. -/
theorem claim_C2_counterexample :
    MerkleTree.buildTree Hc ["a", "b", "c"] = some w3Tree
    ∧ w3Tree.leaves ≠ [MNode.leaf (Hc "a") "a" 0, MNode.leaf (Hc "b") "b" 1,
        MNode.leaf (Hc "c") "c" 2] :=
  ⟨rfl, by decide⟩

/-- C2 amended: building from [k0, k1, k2] (in generic position: all
created hashes distinct) creates leaves Li = H(ki) and stores the leaf
sequence [L0, L1, L2, L2] (the build appends the padded duplicate);
padding pairs the last node with itself giving parents
P0 = H(L0 ‖ L1) and P1 = H(L2 ‖ L2) and root H(P0 ‖ P1); the
membership proof generated for k1 has exactly the path
[(L0, sibling-on-left, level 0), (P1, sibling-on-right, level 1)];
and verification folds H(L0 ‖ L1) then H(that ‖ P1) and accepts. -/
theorem claim_C2_example (H : HashFun) (k0 k1 k2 : String)
    (hnd : (createdHashes H [k0, k1, k2]).Nodup) :
    ∃ t, MerkleTree.buildTree H [k0, k1, k2] = some t
      ∧ t.leaves = [MNode.leaf (H k0) k0 0, MNode.leaf (H k1) k1 1,
          MNode.leaf (H k2) k2 2, MNode.leaf (H k2) k2 2]
      ∧ t.getRootHash = some (H (H (H k0 ++ H k1) ++ H (H k2 ++ H k2)))
      ∧ t.generateMembershipProof H k1 = some
          { leafHash := H k1, leafIndex := 1
            path := [⟨H k0, true, 0⟩, ⟨H (H k2 ++ H k2), false, 1⟩]
            rootHash := some (H (H (H k0 ++ H k1) ++ H (H k2 ++ H k2))) }
      ∧ foldPath H (H k1) [⟨H k0, true, 0⟩, ⟨H (H k2 ++ H k2), false, 1⟩]
          = H (H (H k0 ++ H k1) ++ H (H k2 ++ H k2))
      ∧ MerkleTree.verifyMembershipProof H
          { leafHash := H k1, leafIndex := 1
            path := [⟨H k0, true, 0⟩, ⟨H (H k2 ++ H k2), false, 1⟩]
            rootHash := some (H (H (H k0 ++ H k1) ++ H (H k2 ++ H k2))) } = true := by
  obtain ⟨t, ht⟩ := Option.isSome_iff_exists.mp
    (buildTree_isSome H [k0, k1, k2] (by simp))
  obtain ⟨l, ls, hml, hroot, hnodes, hleaves⟩ := buildTree_spec H _ t hnd ht
  set L0 := MNode.leaf (H k0) k0 0 with hL0
  set L1 := MNode.leaf (H k1) k1 1 with hL1
  set L2 := MNode.leaf (H k2) k2 2 with hL2
  set P0 := MNode.inner (H (H k0 ++ H k1)) L0 L1 with hP0
  set P1 := MNode.inner (H (H k2 ++ H k2)) L2 L2 with hP1
  set R := MNode.inner (H (H (H k0 ++ H k1) ++ H (H k2 ++ H k2))) P0 P1 with hR
  have hml' : mkLeaves H [k0, k1, k2] 0 = [L0, L1, L2] := rfl
  have hcons := hml.symm.trans hml'
  injection hcons with hl hls
  subst hl
  subst hls
  have hpad3 : padEven [L0, L1, L2] = [L0, L1, L2, L2] := by
    unfold padEven
    norm_num
  have hpad2 : padEven [P0, P1] = [P0, P1] := by
    unfold padEven
    norm_num
  have hbp3 : buildPairs H (padEven [L0, L1, L2]) = [P0, P1] := by
    rw [hpad3]
    rfl
  have hbp2 : buildPairs H (padEven [P0, P1]) = [R] := by
    rw [hpad2]
    rfl
  have hfut1 : futureNodes H [R] = [] := by
    simp [futureNodes, futureNodesF]
  have hfutv : futureNodes H [L0, L1, L2] = [P0, P1, R] := by
    rw [futureNodes_cons H _ (by simp), hbp3,
      futureNodes_cons H _ (by simp), hbp2, hfut1]
    rfl
  have hroot1 : rootOf H [R] = R := by
    simp [rootOf, rootOfF]
  have hrootv : rootOf H [L0, L1, L2] = R := by
    rw [rootOf_cons H _ (by simp), hbp3, rootOf_cons H _ (by simp), hbp2, hroot1]
  have hlv : t.leaves = [L0, L1, L2, L2] := by
    rw [hleaves, if_neg (by simp), hpad3]
  have hgrh : t.getRootHash = some (H (H (H k0 ++ H k1) ++ H (H k2 ++ H k2))) := by
    unfold MerkleTree.getRootHash
    rw [hroot, hrootv]
    rfl
  have hch : createdHashes H [k0, k1, k2]
      = [H k0, H k1, H k2, H (H k0 ++ H k1), H (H k2 ++ H k2),
         H (H (H k0 ++ H k1) ++ H (H k2 ++ H k2))] := by
    unfold createdHashes createdNodes
    rw [hml', hfutv]
    rfl
  have hnodup6 : ([H k0, H k1, H k2, H (H k0 ++ H k1), H (H k2 ++ H k2),
      H (H (H k0 ++ H k1) ++ H (H k2 ++ H k2))] : List String).Nodup := hch ▸ hnd
  have h01 : ¬ (H k0 = H k1) := by
    intro he
    rw [List.nodup_cons] at hnodup6
    exact hnodup6.1 (by rw [he]; exact List.mem_cons_self _ _)
  have hfd : t.leaves.find? (fun l => l.hash == generateUserId H k1)
      = some L1 := by
    rw [hlv]
    rw [List.find?_cons_of_neg _ (by simp [hL0, MNode.hash, generateUserId, h01])]
    exact List.find?_cons_of_pos _ (by simp [hL1, MNode.hash, generateUserId])
  have hL1L0 : ¬ (L1 = L0) := by simp [hL0, hL1]
  have hps1 : pairStep H [L0, L1, L2, L2] L1 = some (H k0, true, P0) := by
    rw [pairStep, if_neg hL1L0, if_pos rfl]
    rfl
  have hps2 : pairStep H [P0, P1] P0 = some (H (H k2 ++ H k2), false, R) := by
    rw [pairStep, if_pos rfl]
    rfl
  have hws1 : walkSides H [R] R = [] := by
    simp [walkSides, walkSidesF]
  have hbp3l : buildPairs H [L0, L1, L2, L2] = [P0, P1] := rfl
  have hbp2l : buildPairs H [P0, P1] = [R] := rfl
  have hws : walkSides H [L0, L1, L2] L1
      = [(H k0, true), (H (H k2 ++ H k2), false)] := by
    rw [walkSides_cons H _ _ (by simp), hpad3, hps1]
    simp only []
    rw [hbp3l, walkSides_cons H _ _ (by simp), hpad2, hps2]
    simp only []
    rw [hbp2l, hws1]
  have hwalk := walk_at_leaves H [k0, k1, k2] t hnd ht L1 (by
    rw [hml']
    simp)
  have hgen : t.generateMembershipProof H k1 = some
      { leafHash := H k1, leafIndex := 1
        path := [⟨H k0, true, 0⟩, ⟨H (H k2 ++ H k2), false, 1⟩]
        rootHash := some (H (H (H k0 ++ H k1) ++ H (H k2 ++ H k2))) } := by
    unfold MerkleTree.generateMembershipProof
    simp only [hfd]
    rw [show (mkLeaves H [k0, k1, k2] 0) = [L0, L1, L2] from hml'] at hwalk
    rw [hwalk.1, hws, hgrh]
    rfl
  refine ⟨t, ht, hlv, hgrh, hgen, rfl, ?_⟩
  simp [MerkleTree.verifyMembershipProof, foldPath, combineHashes]

/-- C2 witness: the amended example evaluated at concrete distinct
keys under the concrete hash. -/
theorem claim_C2_example_witness :
    (createdHashes Hc ["a", "b", "c"]).Nodup
    ∧ ∃ t, MerkleTree.buildTree Hc ["a", "b", "c"] = some t
      ∧ t.leaves = [MNode.leaf (Hc "a") "a" 0, MNode.leaf (Hc "b") "b" 1,
          MNode.leaf (Hc "c") "c" 2, MNode.leaf (Hc "c") "c" 2]
      ∧ t.getRootHash = some (Hc (Hc (Hc "a" ++ Hc "b") ++ Hc (Hc "c" ++ Hc "c")))
      ∧ t.generateMembershipProof Hc "b" = some
          { leafHash := Hc "b", leafIndex := 1
            path := [⟨Hc "a", true, 0⟩, ⟨Hc (Hc "c" ++ Hc "c"), false, 1⟩]
            rootHash := some (Hc (Hc (Hc "a" ++ Hc "b") ++ Hc (Hc "c" ++ Hc "c"))) }
      ∧ foldPath Hc (Hc "b") [⟨Hc "a", true, 0⟩, ⟨Hc (Hc "c" ++ Hc "c"), false, 1⟩]
          = Hc (Hc (Hc "a" ++ Hc "b") ++ Hc (Hc "c" ++ Hc "c"))
      ∧ MerkleTree.verifyMembershipProof Hc
          { leafHash := Hc "b", leafIndex := 1
            path := [⟨Hc "a", true, 0⟩, ⟨Hc (Hc "c" ++ Hc "c"), false, 1⟩]
            rootHash := some (Hc (Hc (Hc "a" ++ Hc "b") ++ Hc (Hc "c" ++ Hc "c"))) }
          = true :=
  ⟨by decide, claim_C2_example Hc "a" "b" "c" (by decide)⟩

end Pony
